import Mathlib

/-!
# seaShell: tokenizer and history ledger

A shallow embedding of `parser.c` and `shell.c`.

A C string is modelled by the list of the characters that stand before its
terminating NUL.  Reading `s[i]` is `s[i]?`: the answer `none` is the NUL
terminator, so `s[i] != 0` is `s[i]? ≠ none` and `strlen s` is `s.length`.
`unsigned int` values are natural numbers reduced modulo `2 ^ 32`.
-/

namespace SeaShell

/-! ## C library -/

/-- The `isspace` of the C locale: space, `\t`, `\n`, `\v`, `\f`, `\r`. -/
def isspace (c : Char) : Bool :=
  c = ' ' || (9 ≤ c.toNat && c.toNat ≤ 13)

/-- The `isdigit` of the C library. -/
def isdigit (c : Char) : Bool :=
  48 ≤ c.toNat && c.toNat ≤ 57

/-- Whether `isspace(s[i])` holds; the terminating NUL is not a space. -/
def isspaceAt (s : List Char) (i : Nat) : Bool :=
  match s[i]? with
  | some c => isspace c
  | none => false

/-! ## parser.c -/

/-- The value `getNextToken` returns when no token is left. -/
def END_OF_STRING : Int := -1

/-- The `while` loop of `countTokens`, from index `i` on. -/
def countTokensLoop (cmdLine : List Char) : Nat → Nat → Nat → Nat
  | 0, _, numTokens => numTokens
  | fuel + 1, i, numTokens =>
    match cmdLine[i]? with
    | none => numTokens
    | some c =>
      if !isspace c && isspaceAt cmdLine (i - 1) then
        countTokensLoop cmdLine fuel (i + 1) (numTokens + 1)
      else
        countTokensLoop cmdLine fuel (i + 1) numTokens

/-- The number of tokens `countTokens` reports for `cmdLine`. -/
def countTokens (cmdLine : List Char) : Nat :=
  if cmdLine.length = 0 then 0
  else
    let numTokens := if isspaceAt cmdLine 0 then 0 else 1
    countTokensLoop cmdLine cmdLine.length 1 numTokens

/-- The loop `while (s[i] != 0 && p s[i]) i++`, giving the final `i`. -/
def scanWhile (p : Char → Bool) (cmdLine : List Char) : Nat → Nat → Nat
  | 0, i => i
  | fuel + 1, i =>
    match cmdLine[i]? with
    | none => i
    | some c => if p c then scanWhile p cmdLine fuel (i + 1) else i

/-- The function `getNextToken`: the returned value and the final `*start`. -/
def getNextToken (cmdLine : List Char) (start : Nat) : Int × Nat :=
  let i := scanWhile isspace cmdLine cmdLine.length start
  match cmdLine[i]? with
  | none => (END_OF_STRING, start)
  | some _ =>
    (Int.ofNat (scanWhile (fun c => !isspace c) cmdLine cmdLine.length i), i)

/-- The extraction loop of `parseCommand`, with `k` iterations left.  A
negative `tokenLength` makes the copy undefined: the model answers `none`. -/
def extractTokens (cmdLine : List Char) : Nat → Nat → Option (List (List Char))
  | 0, _ => some []
  | k + 1, start =>
    let r := getNextToken cmdLine start
    let tokenLength : Int := r.1 - Int.ofNat r.2
    if tokenLength < 0 then none
    else
      match extractTokens cmdLine k r.1.toNat with
      | none => none
      | some rest => some ((cmdLine.drop r.2).take tokenLength.toNat :: rest)

/-- The function `parseCommand`: the token array (without its NULL) and the
value stored in `*background`. -/
def parseCommand (cmdLine : List Char) : Option (List (List Char) × Int) :=
  let numTokens := countTokens cmdLine
  match extractTokens cmdLine numTokens 0 with
  | none => none
  | some args =>
    if 0 < numTokens ∧ args[numTokens - 1]? = some [ '&'] then
      some (args.take (numTokens - 1), 1)
    else if 0 < numTokens then
      match args[numTokens - 1]? with
      | none => none
      | some last =>
        let length := last.length
        if length = 0 then none
        else if last[length - 1]? = some '&' then
          some (args.set (numTokens - 1) (last.take (length - 1)), 1)
        else some (args, 0)
    else some (args, 0)

/-! ## Reference tokenizer, after the specification -/

/-- The maximal runs of non-whitespace characters of a line, left to right. -/
def tokenRuns (line : List Char) : List (List Char) :=
  (line.splitOnP isspace).filter (fun t => !t.isEmpty)

/-- The tokenizer as the specification words it. -/
def parseCommandRef (line : List Char) : List (List Char) × Int :=
  let R := tokenRuns line
  match R.getLast? with
  | none => ([], 0)
  | some last =>
    if last = [ '&'] then (R.dropLast, 1)
    else if last.getLast? = some '&' then (R.dropLast ++ [last.dropLast], 1)
    else (R, 0)

/-! ## shell.c -/

/-- Maximum command length. -/
def MAX_CMD_LENGTH : Nat := 1000

/-- How many commands the shell remembers. -/
def HISTORY_LENGTH : Nat := 10

/-- The number of values of an `unsigned int`, `2 ^ 32`. -/
def UINT_RANGE : Nat := 4294967296

/-- The struct `history_t`: a command line and its identifier. -/
structure history_t where
  command : List Char
  commandID : Nat
  deriving DecidableEq

/-- The global variables `historyBuffer` and `commandCount`. -/
structure State where
  historyBuffer : List history_t
  commandCount : Nat
  deriving DecidableEq

/-- The globals when `main` enters its loop: ten zeroed slots, counter 0. -/
def initState : State :=
  { historyBuffer := List.replicate HISTORY_LENGTH { command := [], commandID := 0 },
    commandCount := 0 }

/-- What the process does to the outside world, in program order. -/
inductive Action where
  | print (text : List Char)
  | fork
  | waitpid (pid : Int) (options : Int)
  | execvp (file : List Char) (argv : List (List Char))
  | exit (status : Int)
  deriving DecidableEq

/-- The answers of the operating system that the code branches on: the value
`fork` returns in this process, and whether `execvp` fails (returns). -/
structure Os where
  forkResult : Int
  execvpFails : Bool
  deriving DecidableEq

/-- The result of running a piece of the shell: the globals afterwards, the
actions performed, and whether the process is still running the shell (it is
not after `exit` or after `execvp` replaced it). -/
structure Outcome where
  state : State
  actions : List Action
  running : Bool
  deriving DecidableEq

/-- The function `createNewCmd`. -/
def createNewCmd (s : State) (input : List Char) : history_t :=
  { command := input, commandID := s.commandCount }

/-- The `for` loop of `recordCommand`, `i` running downwards; the argument
is `i + 1`. -/
def shiftLoop (historyBuffer : List history_t) : Nat → List history_t
  | 0 => historyBuffer
  | i + 1 =>
    shiftLoop (historyBuffer.set (i + 1) (historyBuffer.getD i { command := [], commandID := 0 })) i

/-- The function `recordCommand`. -/
def recordCommand (s : State) (cmd : history_t) : State :=
  { s with historyBuffer := (shiftLoop s.historyBuffer (HISTORY_LENGTH - 1)).set 0 cmd }

/-- The record step of `handleInput`: `commandCount++`, `createNewCmd`,
`recordCommand`. -/
def recordStep (s : State) (input : List Char) : State :=
  let s1 := { s with commandCount := (s.commandCount + 1) % UINT_RANGE }
  recordCommand s1 (createNewCmd s1 input)

/-- The text `printf("\t\t%u %s", cmdID, cmd)` writes for a record. -/
def formatRecord (r : history_t) : List Char :=
  "\t\t".toList ++ (Nat.repr r.commandID).toList ++ " ".toList ++ r.command

/-- The function `printStruct`. -/
def printStruct (s : State) (index : Nat) : Action :=
  Action.print (formatRecord (s.historyBuffer.getD index { command := [], commandID := 0 }))

/-- The `for` loops of `printHistory`, `i` running downwards to 0; the
argument is `i + 1`. -/
def printLoop (s : State) : Nat → List Action
  | 0 => []
  | i + 1 => printStruct s i :: printLoop s i

/-- The function `printHistory`. -/
def printHistory (s : State) : List Action :=
  if s.commandCount < HISTORY_LENGTH then printLoop s s.commandCount
  else printLoop s HISTORY_LENGTH

/-- The `for` loop of `checkDigits`, from index `i` on. -/
def checkDigitsLoop (token : List Char) : Nat → Nat → Int → Int
  | 0, _, hasDigits => hasDigits
  | fuel + 1, i, hasDigits =>
    match token[i]? with
    | none => hasDigits
    | some c => if !isdigit c then 0 else checkDigitsLoop token fuel (i + 1) 1

/-- The function `checkDigits`. -/
def checkDigits (token : List Char) : Int :=
  if token[0]? ≠ some '!' then 0
  else checkDigitsLoop token token.length 1 0

/-- The digits `atoi` reads, accumulated in base ten. -/
def atoiDigits : List Char → Int → Int
  | [], acc => acc
  | c :: cs, acc => if isdigit c then atoiDigits cs (acc * 10 + (Int.ofNat c.toNat - 48)) else acc

/-- The `atoi` of the C library: leading white space, an optional sign, then
digits.  A value outside the range of `int` is undefined: `none`. -/
def atoi (str : List Char) : Option Int :=
  let v : Int :=
    match str.dropWhile isspace with
    | '-' :: ds => - atoiDigits ds 0
    | '+' :: ds => atoiDigits ds 0
    | ds => atoiDigits ds 0
  if -2147483648 ≤ v ∧ v ≤ 2147483647 then some v else none

/-- The search loop of `executeOldCommand` from slot `i` on, with `k` slots
left to look at; `handle` is `handleInput`. -/
def searchLoop (handle : State → List Char → Option Outcome) (s : State)
    (numCmd : List Char) (desiredID : Nat) : Nat → Nat → Option Outcome
  | 0, _ =>
    some { state := s, actions := [Action.print (numCmd ++ ": event not found\n".toList)],
           running := true }
  | k + 1, i =>
    let currCmd := s.historyBuffer.getD i { command := [], commandID := 0 }
    if currCmd.commandID = desiredID then handle s currCmd.command
    else searchLoop handle s numCmd desiredID k (i + 1)

/-- The function `executeOldCommand`; `handle` is `handleInput`. -/
def executeOldCommand (handle : State → List Char → Option Outcome) (s : State)
    (numCmd : List Char) : Option Outcome :=
  match atoi (numCmd.drop 1) with
  | none => none
  | some v => searchLoop handle s numCmd (v % (UINT_RANGE : Int)).toNat HISTORY_LENGTH 0

/-- The function `builtInCommands`; `handle` is `handleInput`. -/
def builtInCommands (handle : State → List Char → Option Outcome) (s : State)
    (tokens : List (List Char)) : Option Outcome :=
  match tokens with
  | [] => none
  | t0 :: _ =>
    if t0 = "exit".toList then
      some { state := s, actions := [Action.exit 0], running := false }
    else if t0 = "history".toList then
      some { state := s, actions := printHistory s, running := true }
    else executeOldCommand handle s t0

/-- The child side of `executeCommand`: `execvp`, and when it returns the
message and `exit(0)`. -/
def childExec (os : Os) (s : State) (tokens : List (List Char)) : Option Outcome :=
  match tokens with
  | [] => none
  | t0 :: _ =>
    some { state := s,
           actions := [Action.fork, Action.execvp t0 tokens] ++
             (if os.execvpFails then
                [Action.print (t0 ++ ": command not found\n".toList), Action.exit 0]
              else []),
           running := false }

/-- The function `executeCommand`. -/
def executeCommand (os : Os) (s : State) (tokens : List (List Char)) (background : Int) :
    Option Outcome :=
  let pid := os.forkResult
  if background ≠ 0 then
    if pid = 0 then childExec os s tokens
    else some { state := s, actions := [Action.fork], running := true }
  else
    if pid ≠ 0 then
      some { state := s, actions := [Action.fork, Action.waitpid pid 0], running := true }
    else childExec os s tokens

/-- The dispatch of `handleInput`: built-in commands against the launcher;
`handle` is `handleInput`. -/
def dispatch (os : Os) (handle : State → List Char → Option Outcome) (s : State)
    (tokens : List (List Char)) (background : Int) : Option Outcome :=
  match tokens with
  | [] => none
  | t0 :: _ =>
    if t0 = "exit".toList ∨ t0 = "history".toList ∨ checkDigits t0 ≠ 0 then
      builtInCommands handle s tokens
    else executeCommand os s tokens background

/-- The function `handleInput`.  The fuel bounds the depth of the recursion
through `executeOldCommand`; `none` is no answer within the fuel, or undefined
behaviour. -/
def handleInput (os : Os) : Nat → State → List Char → Option Outcome
  | 0, _, _ => none
  | fuel + 1, s, input =>
    match parseCommand input with
    | none => none
    | some (tokens, background) =>
      match tokens with
      | [] => some { state := s, actions := [], running := true }
      | t0 :: rest =>
        let s1 := if t0[0]? ≠ some '!' then recordStep s input else s
        dispatch os (handleInput os fuel) s1 (t0 :: rest) background

/-! ## Notions of the specification -/

/-- The slots that the counter marks as filled, the ones `printHistory` lists:
the first `min(commandCount, 10)` slots.  As long as the counter has not
wrapped they are the records of the ledger, `ledgerRecords`. -/
def heldRecords (s : State) : List history_t :=
  s.historyBuffer.take (min s.commandCount HISTORY_LENGTH)

/-- The records the ledger holds, inserted and not evicted, most recent first:
the slots that hold a text.  A recorded line has a token, so its text is not
empty; a slot never written has the empty text. -/
def ledgerRecords (s : State) : List history_t :=
  s.historyBuffer.filter (fun r => !r.command.isEmpty)

/-- The record step applied to a sequence of command lines in turn. -/
def recordAll (s : State) (lines : List (List Char)) : State :=
  lines.foldl recordStep s

/-- A line that `handleInput` records: its token sequence is not empty and its
first token does not begin with `!`. -/
def Recorded (line : List Char) : Prop :=
  ∃ t0 rest bg, parseCommand line = some (t0 :: rest, bg) ∧ t0[0]? ≠ some '!'

/-- The states the shell reaches from `initState` by handling lines that fit
the input buffer, as long as the process keeps running. -/
inductive Reachable : State → Prop where
  | init : Reachable initState
  | step {s : State} (os : Os) (fuel : Nat) (line : List Char) (out : Outcome) :
      Reachable s → line.length < MAX_CMD_LENGTH →
      handleInput os fuel s line = some out → out.running = true → Reachable out.state

/-! ## Example states -/

/-- The answers seen by the shell process itself: `fork` returns the child. -/
def shellOs : Os := { forkResult := 4242, execvpFails := true }

/-- The globals after the single line `pwd`. -/
def statePwd : State :=
  { historyBuffer := { command := "pwd\n".toList, commandID := 1 } ::
      List.replicate 9 { command := [], commandID := 0 },
    commandCount := 1 }

/-- The globals after the lines `pwd` and `ls`. -/
def statePwdLs : State :=
  { historyBuffer := { command := "ls\n".toList, commandID := 2 } ::
      { command := "pwd\n".toList, commandID := 1 } ::
      List.replicate 8 { command := [], commandID := 0 },
    commandCount := 2 }

/-! ## Notions used in the proofs about parser.c -/

/-- The tokens of `s` that start after a character `prev` standing right
before `s`: a run that continues `prev` is not counted. -/
def runsAfter (prevSpace : Bool) (s : List Char) : Nat :=
  if prevSpace then (tokenRuns s).length
  else (tokenRuns (s.dropWhile (fun c => !isspace c))).length

/-- The answers of the successive `getNextToken` calls of the extraction loop
of `parseCommand` run for `k` iterations from `start`: the value returned and
the value left in `*start`. -/
def tokenCalls (cmdLine : List Char) : Nat → Nat → List (Int × Nat)
  | 0, _ => []
  | k + 1, start =>
    let r := getNextToken cmdLine start
    r :: tokenCalls cmdLine k r.1.toNat

/-! ## shell.c: the signal handler -/

/-- The option `WNOHANG` of `waitpid`: do not block (its value on Linux). -/
def WNOHANG : Int := 1

/-- The loop `while (waitpid(-1, NULL, WNOHANG) > 0) {}` of `handler`, over the
values the successive calls return; `none` when the given values run out
before a call returns a value that is not positive. -/
def handlerLoop : List Int → Option (List Action)
  | [] => none
  | r :: rs =>
    if r > 0 then
      match handlerLoop rs with
      | none => none
      | some calls => some (Action.waitpid (-1) WNOHANG :: calls)
    else some [Action.waitpid (-1) WNOHANG]

/-- The function `handler`, the signal handler for `SIGCHLD`; `results` are
the values its `waitpid` calls return. -/
def handler (s : State) (_sigNum : Int) (results : List Int) : Option Outcome :=
  match handlerLoop results with
  | none => none
  | some calls => some { state := s, actions := calls, running := true }

/-! ## Facts about the reference tokenizer -/

theorem getElem?_append_length (pre s : List Char) :
    (pre ++ s)[pre.length]? = s.head? := by
  rw [List.getElem?_append_right (le_refl _)]
  cases s <;> simp

theorem tokenRuns_nil : tokenRuns [] = [] := by
  simp [tokenRuns, List.splitOnP_nil]

theorem tokenRuns_cons_space (c : Char) (cs : List Char) (h : isspace c = true) :
    tokenRuns (c :: cs) = tokenRuns cs := by
  simp [tokenRuns, List.splitOnP_cons, h]

theorem splitOnP_shape (cs : List Char) :
    ∃ T, cs.splitOnP isspace = cs.takeWhile (fun c => !isspace c) :: T ∧
      T.filter (fun t => !t.isEmpty) = tokenRuns (cs.dropWhile (fun c => !isspace c)) := by
  induction cs with
  | nil => exact ⟨[], by simp [List.splitOnP_nil], by simp [tokenRuns_nil]⟩
  | cons d ds ih =>
    obtain ⟨T, hT, hF⟩ := ih
    by_cases hd : isspace d = true
    · refine ⟨ds.splitOnP isspace, by simp [List.splitOnP_cons, hd], ?_⟩
      simp [hd, tokenRuns, List.splitOnP_cons]
    · refine ⟨T, by simp [List.splitOnP_cons, hd, hT], ?_⟩
      simpa [hd] using hF

theorem tokenRuns_cons_nonspace (c : Char) (cs : List Char) (h : isspace c = false) :
    tokenRuns (c :: cs) =
      (c :: cs.takeWhile (fun c => !isspace c)) ::
        tokenRuns (cs.dropWhile (fun c => !isspace c)) := by
  obtain ⟨T, hT, hF⟩ := splitOnP_shape cs
  simp [tokenRuns, List.splitOnP_cons, h, hT] at hF ⊢
  exact hF

theorem tokenRuns_dropWhile_space (s : List Char) :
    tokenRuns (s.dropWhile isspace) = tokenRuns s := by
  induction s with
  | nil => rfl
  | cons c cs ih =>
    by_cases hc : isspace c = true
    · simp [List.dropWhile_cons, hc, ih, tokenRuns_cons_space]
    · simp [List.dropWhile_cons, hc]

/-! ## The scanning loops -/

theorem scanWhile_spec (p : Char → Bool) (s : List Char) :
    ∀ (pre : List Char) (fuel : Nat), s.length ≤ fuel →
      scanWhile p (pre ++ s) fuel pre.length = pre.length + (s.takeWhile p).length := by
  induction s with
  | nil =>
    intro pre fuel _
    cases fuel <;> simp [scanWhile]
  | cons c cs ih =>
    intro pre fuel hf
    cases fuel with
    | zero => simp at hf
    | succ f =>
      have hget : (pre ++ c :: cs)[pre.length]? = some c := by
        rw [getElem?_append_length]; rfl
      by_cases hp : p c = true
      · have h := ih (pre ++ [c]) f (by simpa using hf)
        simp only [List.append_assoc, List.singleton_append, List.length_append,
          List.length_singleton] at h
        simp [scanWhile, hget, hp, h, List.takeWhile_cons]
        omega
      · simp [scanWhile, hget, hp, List.takeWhile_cons]

theorem getNextToken_none (pre s : List Char) (h : s.dropWhile isspace = []) :
    getNextToken (pre ++ s) pre.length = (END_OF_STRING, pre.length) := by
  have hs := scanWhile_spec isspace s pre (pre ++ s).length (by simp)
  have hsplit : s = s.takeWhile isspace := by
    have := List.takeWhile_append_dropWhile isspace s
    rw [h, List.append_nil] at this
    exact this.symm
  have hget : (pre ++ s)[pre.length + (s.takeWhile isspace).length]? = none := by
    rw [← hsplit]
    simp
  simp only [getNextToken, hs, hget]

theorem getNextToken_some (pre s cs : List Char) (c : Char)
    (h : s.dropWhile isspace = c :: cs) :
    getNextToken (pre ++ s) pre.length =
      (Int.ofNat (pre.length + (s.takeWhile isspace).length +
          ((c :: cs).takeWhile (fun c => !isspace c)).length),
        pre.length + (s.takeWhile isspace).length) := by
  have hs := scanWhile_spec isspace s pre (pre ++ s).length (by simp)
  have hsplit : s = s.takeWhile isspace ++ c :: cs := by
    have := List.takeWhile_append_dropWhile isspace s
    rw [h] at this
    exact this.symm
  have hcat : pre ++ s = (pre ++ s.takeWhile isspace) ++ c :: cs := by
    rw [List.append_assoc, ← hsplit]
  have hget : (pre ++ s)[pre.length + (s.takeWhile isspace).length]? = some c := by
    rw [hcat, ← List.length_append, getElem?_append_length]; rfl
  have hs2 := scanWhile_spec (fun c => !isspace c) (c :: cs) (pre ++ s.takeWhile isspace)
    (pre ++ s).length (by
      have : (pre ++ s).length = (pre ++ s.takeWhile isspace).length + (c :: cs).length := by
        rw [← List.length_append, ← hcat]
      omega)
  rw [← hcat] at hs2
  simp only [List.length_append] at hs2 hs
  simp only [getNextToken, List.length_append, hs, hget, hs2]

theorem extractTokens_spec (cmdLine : List Char) :
    ∀ (k : Nat) (pre s : List Char), cmdLine = pre ++ s → k ≤ (tokenRuns s).length →
      extractTokens cmdLine k pre.length = some ((tokenRuns s).take k) := by
  intro k
  induction k with
  | zero => intro pre s _ _; simp [extractTokens]
  | succ k ih =>
    intro pre s hcmd hk
    cases hd : s.dropWhile isspace with
    | nil =>
      rw [← tokenRuns_dropWhile_space, hd, tokenRuns_nil] at hk
      simp at hk
    | cons c cs =>
      have hc : isspace c = false := by
        have := List.head_dropWhile_not isspace s (by rw [hd]; simp)
        simpa [hd] using this
      have hruns : tokenRuns s = (c :: cs.takeWhile (fun c => !isspace c)) ::
          tokenRuns (cs.dropWhile (fun c => !isspace c)) := by
        rw [← tokenRuns_dropWhile_space, hd, tokenRuns_cons_nonspace c cs hc]
      have htw : (c :: cs).takeWhile (fun c => !isspace c) =
          c :: cs.takeWhile (fun c => !isspace c) := by
        simp [List.takeWhile_cons, hc]
      have hdw : (c :: cs).dropWhile (fun c => !isspace c) =
          cs.dropWhile (fun c => !isspace c) := by
        simp [List.dropWhile_cons, hc]
      have hsplit : s = s.takeWhile isspace ++ c :: cs := by
        have := List.takeWhile_append_dropWhile isspace s
        rw [hd] at this
        exact this.symm
      have hsplit2 : c :: cs = (c :: cs.takeWhile (fun c => !isspace c)) ++
          cs.dropWhile (fun c => !isspace c) := by
        simp
      have hcmd2 : cmdLine = (pre ++ s.takeWhile isspace ++
          (c :: cs.takeWhile (fun c => !isspace c))) ++
          cs.dropWhile (fun c => !isspace c) := by
        rw [hcmd, List.append_assoc, List.append_assoc, ← hsplit2, ← hsplit]
      have hrec := ih _ _ hcmd2 (by rw [hruns] at hk; simpa using hk)
      have hdrop : List.take ((c :: cs.takeWhile (fun c => !isspace c)).length)
          (List.drop (pre.length + (s.takeWhile isspace).length) cmdLine) =
          c :: cs.takeWhile (fun c => !isspace c) := by
        rw [hcmd2, List.append_assoc, ← List.length_append, List.drop_left, List.take_left]
      have hnt := getNextToken_some pre s cs c hd
      rw [← hcmd, htw] at hnt
      simp only [List.length_append] at hrec
      simp only [extractTokens, hnt, hruns, List.take_succ_cons]
      have e1 : (Int.ofNat (pre.length + (s.takeWhile isspace).length +
          (c :: cs.takeWhile (fun c => !isspace c)).length)).toNat =
          pre.length + (s.takeWhile isspace).length +
          (c :: cs.takeWhile (fun c => !isspace c)).length := Int.toNat_ofNat _
      have e2 : (Int.ofNat (pre.length + (s.takeWhile isspace).length +
          (c :: cs.takeWhile (fun c => !isspace c)).length) -
          Int.ofNat (pre.length + (s.takeWhile isspace).length)) =
          Int.ofNat ((c :: cs.takeWhile (fun c => !isspace c)).length) := by
        simp only [Int.ofNat_eq_coe]; push_cast; ring
      rw [e1, e2, hrec]
      have e3 : ¬ (Int.ofNat ((c :: cs.takeWhile (fun c => !isspace c)).length) < 0) := by
        simp only [Int.ofNat_eq_coe]; omega
      have e4 : (Int.ofNat ((c :: cs.takeWhile (fun c => !isspace c)).length)).toNat =
          (c :: cs.takeWhile (fun c => !isspace c)).length := Int.toNat_ofNat _
      rw [if_neg e3, e4, hdrop]

theorem countTokensLoop_spec (s : List Char) :
    ∀ (pre : List Char) (prev : Char) (n fuel : Nat), s.length ≤ fuel →
      countTokensLoop (pre ++ prev :: s) fuel (pre.length + 1) n =
        n + runsAfter (isspace prev) s := by
  induction s with
  | nil =>
    intro pre prev n fuel _
    have hget : (pre ++ [prev])[pre.length + 1]? = none := by simp
    cases fuel <;> cases hp : isspace prev <;>
      simp [countTokensLoop, hget, runsAfter, tokenRuns_nil]
  | cons c cs ih =>
    intro pre prev n fuel hf
    cases fuel with
    | zero => simp at hf
    | succ f =>
      have hcat : pre ++ prev :: c :: cs = (pre ++ [prev]) ++ c :: cs := by simp
      have hget : (pre ++ prev :: c :: cs)[pre.length + 1]? = some c := by
        have := getElem?_append_length (pre ++ [prev]) (c :: cs)
        simpa using this
      have hprev : isspaceAt (pre ++ prev :: c :: cs) pre.length = isspace prev := by
        have := getElem?_append_length pre (prev :: c :: cs)
        simp only [List.head?_cons] at this
        simp [isspaceAt, this]
      have h1 := ih (pre ++ [prev]) c
      simp only [List.append_assoc, List.singleton_append, List.length_append,
        List.length_singleton] at h1
      have hf2 : cs.length ≤ f := by simpa using hf
      cases hc : isspace c <;> cases hp : isspace prev <;>
        simp [countTokensLoop, hget, hprev, hc, hp, h1 _ _ hf2, runsAfter,
          tokenRuns_cons_space, tokenRuns_cons_nonspace, List.dropWhile_cons]
      omega

theorem countTokens_spec (cmdLine : List Char) :
    countTokens cmdLine = (tokenRuns cmdLine).length := by
  cases cmdLine with
  | nil => simp [countTokens, tokenRuns_nil]
  | cons c cs =>
    have h := countTokensLoop_spec cs [] c
    simp only [List.nil_append, List.length_nil, Nat.zero_add] at h
    cases hc : isspace c <;>
      simp [countTokens, isspaceAt, hc, h, runsAfter, tokenRuns_cons_space,
        tokenRuns_cons_nonspace]
    omega

theorem extractTokens_all (cmdLine : List Char) :
    extractTokens cmdLine (countTokens cmdLine) 0 = some (tokenRuns cmdLine) := by
  have h := extractTokens_spec cmdLine (countTokens cmdLine) [] cmdLine rfl
    (by rw [countTokens_spec])
  rw [countTokens_spec] at h ⊢
  simpa using h

theorem tokenRuns_ne_nil (line t : List Char) (h : t ∈ tokenRuns line) : t ≠ [] := by
  simp only [tokenRuns, List.mem_filter] at h
  intro ht
  simp [ht] at h

theorem parseCommand_eq_ref (line : List Char) :
    parseCommand line = some (parseCommandRef line) := by
  have hne := tokenRuns_ne_nil line
  simp only [parseCommand]
  rw [extractTokens_all]
  simp only [parseCommandRef, countTokens_spec]
  rcases List.eq_nil_or_concat (tokenRuns line) with hR | ⟨init, last, hR⟩
  · simp [hR]
  · rw [List.concat_eq_append] at hR
    rw [hR] at hne ⊢
    have hlast : last ≠ [] := hne last (by simp)
    rcases List.eq_nil_or_concat last with hl | ⟨li, lc, hl⟩
    · exact absurd hl hlast
    · rw [List.concat_eq_append] at hl
      subst hl
      by_cases h1 : li ++ [lc] = [ '&']
      · simp [h1]
      · by_cases h2 : lc = '&'
        · have hli : li ≠ [] := by
            intro h
            exact h1 (by rw [h, h2]; rfl)
          simp [h2, hli]
        · simp [h1, h2]

theorem tokenRuns_induction (P : List Char → Prop) (hnil : P [])
    (hspace : ∀ c cs, isspace c = true → P cs → P (c :: cs))
    (htok : ∀ c cs, isspace c = false → P (cs.dropWhile (fun c => !isspace c)) → P (c :: cs)) :
    ∀ l, P l := by
  have key : ∀ n, ∀ l : List Char, l.length ≤ n → P l := by
    intro n
    induction n with
    | zero =>
      intro l hl
      cases l with
      | nil => exact hnil
      | cons c cs => simp at hl
    | succ n ih =>
      intro l hl
      cases l with
      | nil => exact hnil
      | cons c cs =>
        have hcs : cs.length ≤ n := by simpa using hl
        cases hc : isspace c with
        | true => exact hspace c cs hc (ih cs hcs)
        | false =>
          refine htok c cs hc (ih _ ?_)
          have := (List.dropWhile_sublist (fun c => !isspace c) (l := cs)).length_le
          omega
  exact fun l => key l.length l (le_refl _)

theorem tokenRuns_flatten (line : List Char) :
    (tokenRuns line).flatten = line.filter (fun c => !isspace c) := by
  induction line using tokenRuns_induction with
  | hnil => simp [tokenRuns_nil]
  | hspace c cs hc ih => simp [tokenRuns_cons_space, hc, ih]
  | htok c cs hc ih =>
    have hsplit := List.takeWhile_append_dropWhile (fun c => !isspace c) cs
    have htw : (cs.takeWhile (fun c => !isspace c)).filter (fun c => !isspace c) =
        cs.takeWhile (fun c => !isspace c) := by
      rw [List.filter_eq_self]
      intro a ha
      exact List.mem_takeWhile_imp (p := fun c => !isspace c) ha
    have hf : cs.filter (fun c => !isspace c) = cs.takeWhile (fun c => !isspace c) ++
        (cs.dropWhile (fun c => !isspace c)).filter (fun c => !isspace c) := by
      conv_lhs => rw [← hsplit]
      rw [List.filter_append, htw]
    rw [tokenRuns_cons_nonspace c cs hc, List.flatten_cons, ih]
    simp [hc, hf]

theorem getLast?_filter_iff (p : Char → Bool) (a : Char) (l : List Char) :
    (l.filter p).getLast? = some a ↔
      ∃ pre post, l = pre ++ a :: post ∧ p a = true ∧ ∀ c ∈ post, p c = false := by
  constructor
  · induction l using List.reverseRecOn with
    | nil => simp
    | append_singleton l x ih =>
      intro h
      rw [List.filter_append] at h
      cases hx : p x with
      | true =>
        have hfx : List.filter p [x] = [x] := by simp [hx]
        rw [hfx, List.getLast?_concat] at h
        injection h with h
        subst h
        exact ⟨l, [], by simp, hx, by simp⟩
      | false =>
        have hfx : List.filter p [x] = [] := by simp [hx]
        rw [hfx, List.append_nil] at h
        obtain ⟨pre, post, hl, hpa, hpost⟩ := ih h
        refine ⟨pre, post ++ [x], by simp [hl], hpa, ?_⟩
        intro c hc
        rcases List.mem_append.mp hc with hc | hc
        · exact hpost c hc
        · simp at hc; rw [hc]; exact hx
  · rintro ⟨pre, post, rfl, hpa, hpost⟩
    have hpost2 : post.filter p = [] := by
      rw [List.filter_eq_nil_iff]
      intro c hc
      simp [hpost c hc]
    have : List.filter p (pre ++ a :: post) = List.filter p pre ++ [a] := by
      simp [List.filter_append, List.filter_cons, hpa, hpost2]
    rw [this, List.getLast?_concat]

theorem tokenRuns_cases (line : List Char) :
    tokenRuns line = [] ∨ ∃ init li lc, tokenRuns line = init ++ [li ++ [lc]] := by
  rcases List.eq_nil_or_concat (tokenRuns line) with hR | ⟨init, last, hR⟩
  · exact Or.inl hR
  · rw [List.concat_eq_append] at hR
    have hlast : last ≠ [] := tokenRuns_ne_nil line last (by rw [hR]; simp)
    rcases List.eq_nil_or_concat last with hl | ⟨li, lc, hl⟩
    · exact absurd hl hlast
    · rw [List.concat_eq_append] at hl
      exact Or.inr ⟨init, li, lc, by rw [hR, hl]⟩

theorem parseCommandRef_flatten (line : List Char) :
    (parseCommandRef line).1.flatten ++ (if (parseCommandRef line).2 = 1 then [ '&'] else []) =
      line.filter (fun c => !isspace c) := by
  rw [← tokenRuns_flatten]
  rcases tokenRuns_cases line with hR | ⟨init, li, lc, hR⟩
  · simp [parseCommandRef, hR]
  · by_cases h1 : li ++ [lc] = [ '&']
    · simp [parseCommandRef, hR, h1]
    · by_cases h2 : lc = '&'
      · have hli : li ≠ [] := by
          intro h
          exact h1 (by rw [h, h2]; rfl)
        simp [parseCommandRef, hR, h2, hli]
      · simp [parseCommandRef, hR, h1, h2]

theorem parseCommandRef_background (line : List Char) :
    ((parseCommandRef line).2 = 1 ↔
        (line.filter (fun c => !isspace c)).getLast? = some '&') ∧
      ((parseCommandRef line).2 = 1 ∨ (parseCommandRef line).2 = 0) := by
  rw [← tokenRuns_flatten]
  rcases tokenRuns_cases line with hR | ⟨init, li, lc, hR⟩
  · simp [parseCommandRef, hR]
  · have hlast : (init ++ [li ++ [lc]]).flatten.getLast? = some lc := by
      have : (init ++ [li ++ [lc]]).flatten = (init.flatten ++ li) ++ [lc] := by simp
      rw [this, List.getLast?_concat]
    rw [hR, hlast]
    by_cases h1 : li ++ [lc] = [ '&']
    · have h2 : lc = '&' := by
        have := congrArg List.getLast? h1
        rw [List.getLast?_concat] at this
        simpa using this
      by_cases hli : li = [] <;> simp [parseCommandRef, hR, h2, hli]
    · by_cases h2 : lc = '&'
      · have hli : li ≠ [] := by
          intro h
          exact h1 (by rw [h, h2]; rfl)
        simp [parseCommandRef, hR, h2, hli]
      · simp [parseCommandRef, hR, h1, h2]

/-! ## The tokenizer claims -/

/-- C1: for every input line `parseCommand` returns the result of the reference
definition over the maximal runs of non-whitespace characters: no run gives the
empty sequence and background 0; a last run that is exactly `&` is removed and
background is 1; a last run ending in `&` loses that character and background
is 1; otherwise the runs are returned with background 0.  The five lines of the
specification give the stated results. -/
theorem C1_parseCommand_eq_reference :
    (∀ line : List Char, parseCommand line = some (parseCommandRef line)) ∧
    parseCommand "ls -l &".toList = some (["ls".toList, "-l".toList], 1) ∧
    parseCommand "sleep 5&".toList = some (["sleep".toList, "5".toList], 1) ∧
    parseCommand "echo a&b".toList = some (["echo".toList, "a&b".toList], 0) ∧
    parseCommand "".toList = some ([], 0) ∧
    parseCommand "   ".toList = some ([], 0) :=
  ⟨parseCommand_eq_ref, by decide, by decide, by decide, by decide, by decide⟩

/-- C2: for every input line `parseCommand` stores 1 in `*background` exactly
when the line has a non-whitespace character and the last one is `&`, that is
when the line is some text, then `&`, then white space only; otherwise it
stores 0. -/
theorem C2_background_iff_last_char (line : List Char) :
    ∃ tokens background, parseCommand line = some (tokens, background) ∧
      (background = 1 ↔
        ∃ pre post, line = pre ++ '&' :: post ∧ ∀ c ∈ post, isspace c = true) ∧
      (background ≠ 1 → background = 0) := by
  refine ⟨(parseCommandRef line).1, (parseCommandRef line).2, parseCommand_eq_ref line, ?_, ?_⟩
  · rw [(parseCommandRef_background line).1, getLast?_filter_iff]
    constructor
    · rintro ⟨pre, post, h, _, hpost⟩
      exact ⟨pre, post, h, fun c hc => by simpa using hpost c hc⟩
    · rintro ⟨pre, post, h, hpost⟩
      exact ⟨pre, post, h, by decide, fun c hc => by simp [hpost c hc]⟩
  · intro h
    rcases (parseCommandRef_background line).2 with h1 | h0
    · exact absurd h1 h
    · exact h0

/-- C3: for every input line the tokens `parseCommand` returns, concatenated in
order and followed by one `&` when background is 1, are the line with its
whitespace characters deleted. -/
theorem C3_tokens_concat_eq_nonspace (line : List Char) :
    ∃ tokens background, parseCommand line = some (tokens, background) ∧
      tokens.flatten ++ (if background = 1 then [ '&'] else []) =
        line.filter (fun c => !isspace c) :=
  ⟨(parseCommandRef line).1, (parseCommandRef line).2, parseCommand_eq_ref line,
    parseCommandRef_flatten line⟩

/-! ## The ledger -/

theorem shiftLoop_set (b : List history_t) (r : history_t) (h : b.length = 10) :
    (shiftLoop b 9).set 0 r = r :: b.take 9 := by
  match b, h with
  | [_, _, _, _, _, _, _, _, _, _], _ => rfl

theorem recordStep_eq (s : State) (line : List Char)
    (h : s.historyBuffer.length = HISTORY_LENGTH) :
    recordStep s line =
      { historyBuffer :=
          { command := line, commandID := (s.commandCount + 1) % UINT_RANGE } ::
            s.historyBuffer.take 9,
        commandCount := (s.commandCount + 1) % UINT_RANGE } := by
  simp only [recordStep, recordCommand, createNewCmd, HISTORY_LENGTH]
  rw [shiftLoop_set _ _ h]

theorem recordStep_length (s : State) (line : List Char)
    (h : s.historyBuffer.length = HISTORY_LENGTH) :
    (recordStep s line).historyBuffer.length = HISTORY_LENGTH := by
  rw [recordStep_eq s line h]
  simp only [HISTORY_LENGTH] at h ⊢
  simp [h]

theorem printLoop_eq (s : State) :
    ∀ n, n ≤ s.historyBuffer.length →
      printLoop s n = ((s.historyBuffer.take n).reverse).map (fun r => Action.print (formatRecord r)) := by
  intro n
  induction n with
  | zero => intro _; simp [printLoop]
  | succ i ih =>
    intro hi
    have hlt : i < s.historyBuffer.length := by omega
    have hget : s.historyBuffer[i]? = some s.historyBuffer[i] := List.getElem?_eq_getElem hlt
    have htake : s.historyBuffer.take (i + 1) = s.historyBuffer.take i ++ [s.historyBuffer[i]] := by
      rw [List.take_succ, hget]; rfl
    have hD : s.historyBuffer.getD i { command := [], commandID := 0 } = s.historyBuffer[i] := by
      simp [List.getD, hget]
    rw [printLoop, ih (by omega), htake, List.reverse_append, printStruct, hD]
    rfl

theorem printHistory_eq (s : State) (h : s.historyBuffer.length = HISTORY_LENGTH) :
    printHistory s = (heldRecords s).reverse.map (fun r => Action.print (formatRecord r)) := by
  unfold printHistory heldRecords
  split
  · rename_i hlt
    rw [printLoop_eq s _ (by omega), Nat.min_eq_left (by omega)]
  · rename_i hge
    rw [printLoop_eq s _ (by omega), Nat.min_eq_right (by omega)]

/-! ## Dispatch -/

theorem checkDigits_not_bang (t0 : List Char) (h : t0[0]? ≠ some '!') : checkDigits t0 = 0 := by
  simp [checkDigits, h]

theorem executeCommand_state (os : Os) (s : State) (tokens : List (List Char)) (bg : Int)
    (out : Outcome) (h : executeCommand os s tokens bg = some out) : out.state = s := by
  unfold executeCommand childExec at h
  cases tokens with
  | nil => simp at h; split_ifs at h <;> simp_all <;> (subst h; rfl)
  | cons t0 rest => simp at h; split_ifs at h <;> simp_all <;> (subst h; rfl)

theorem executeCommand_cons (os : Os) (s : State) (t0 : List Char) (rest : List (List Char))
    (bg : Int) : ∃ out, executeCommand os s (t0 :: rest) bg = some out ∧ out.state = s := by
  unfold executeCommand childExec
  simp only []
  split_ifs <;> exact ⟨_, rfl, rfl⟩

/-- The dispatch of a line whose first token does not begin with `!`: it never
re-enters `handleInput`. -/
theorem dispatch_not_bang (os : Os) (handle : State → List Char → Option Outcome) (s : State)
    (t0 : List Char) (rest : List (List Char)) (bg : Int) (h : t0[0]? ≠ some '!') :
    dispatch os handle s (t0 :: rest) bg =
      if t0 = "exit".toList then
        some { state := s, actions := [Action.exit 0], running := false }
      else if t0 = "history".toList then
        some { state := s, actions := printHistory s, running := true }
      else executeCommand os s (t0 :: rest) bg := by
  simp only [dispatch, checkDigits_not_bang t0 h, builtInCommands]
  split_ifs <;> first | rfl | simp_all

theorem dispatch_not_bang_state (os : Os) (handle : State → List Char → Option Outcome)
    (s : State) (t0 : List Char) (rest : List (List Char)) (bg : Int) (h : t0[0]? ≠ some '!') :
    ∃ out, dispatch os handle s (t0 :: rest) bg = some out ∧ out.state = s := by
  rw [dispatch_not_bang os handle s t0 rest bg h]
  split_ifs
  · exact ⟨_, rfl, rfl⟩
  · exact ⟨_, rfl, rfl⟩
  · exact executeCommand_cons os s t0 rest bg

theorem handleInput_recorded (os : Os) (fuel : Nat) (s : State) (line t0 : List Char)
    (rest : List (List Char)) (bg : Int) (hp : parseCommand line = some (t0 :: rest, bg))
    (h : t0[0]? ≠ some '!') :
    handleInput os (fuel + 1) s line =
      dispatch os (handleInput os fuel) (recordStep s line) (t0 :: rest) bg := by
  simp [handleInput, hp, h]

theorem searchLoop_cases (handle : State → List Char → Option Outcome) (s : State)
    (numCmd : List Char) (d : Nat) :
    ∀ k i, searchLoop handle s numCmd d k i =
        some { state := s, actions := [Action.print (numCmd ++ ": event not found\n".toList)],
               running := true } ∨
      ∃ l, searchLoop handle s numCmd d k i = handle s l := by
  intro k
  induction k with
  | zero => intro i; exact Or.inl rfl
  | succ k ih =>
    intro i
    simp only [searchLoop]
    split_ifs
    · exact Or.inr ⟨_, rfl⟩
    · exact ih (i + 1)

theorem dispatch_cases (os : Os) (handle : State → List Char → Option Outcome) (s : State)
    (tokens : List (List Char)) (bg : Int) (out : Outcome)
    (h : dispatch os handle s tokens bg = some out) :
    out.state = s ∨ ∃ l, handle s l = some out := by
  cases tokens with
  | nil => simp [dispatch] at h
  | cons t0 rest =>
    simp only [dispatch] at h
    split_ifs at h
    · simp only [builtInCommands] at h
      split_ifs at h
      · injection h with h; subst h; exact Or.inl rfl
      · injection h with h; subst h; exact Or.inl rfl
      · simp only [executeOldCommand] at h
        split at h
        · exact absurd h (by simp)
        · rename_i v _
          rcases searchLoop_cases handle s t0 (v % (UINT_RANGE : Int)).toNat HISTORY_LENGTH 0
            with h1 | ⟨l, h1⟩
          · rw [h1] at h; injection h with h; subst h; exact Or.inl rfl
          · rw [h1] at h; exact Or.inr ⟨l, h⟩
    · exact Or.inl (executeCommand_state os s _ bg out h)

theorem handleInput_state (os : Os) :
    ∀ (fuel : Nat) (s : State) (line : List Char) (out : Outcome),
      handleInput os fuel s line = some out →
        out.state = s ∨ ∃ t, Recorded t ∧ out.state = recordStep s t := by
  intro fuel
  induction fuel with
  | zero => intro s line out h; simp [handleInput] at h
  | succ fuel ih =>
    intro s line out h
    cases hp : parseCommand line with
    | none => simp [handleInput, hp] at h
    | some r =>
      obtain ⟨tokens, bg⟩ := r
      cases tokens with
      | nil =>
        simp [handleInput, hp] at h
        subst h; exact Or.inl rfl
      | cons t0 rest =>
        by_cases hb : t0[0]? = some '!'
        · have h2 : dispatch os (handleInput os fuel) s (t0 :: rest) bg = some out := by
            simpa [handleInput, hp, hb] using h
          rcases dispatch_cases os _ s _ bg out h2 with h3 | ⟨l, h3⟩
          · exact Or.inl h3
          · exact ih s l out h3
        · rw [handleInput_recorded os fuel s line t0 rest bg hp hb] at h
          obtain ⟨out2, h4, h5⟩ := dispatch_not_bang_state os (handleInput os fuel)
            (recordStep s line) t0 rest bg hb
          rw [h4] at h
          injection h with h
          subst h
          exact Or.inr ⟨line, ⟨t0, rest, bg, hp, hb⟩, h5⟩

theorem recordAll_concat (s : State) (lines : List (List Char)) (t : List Char) :
    recordAll s (lines ++ [t]) = recordStep (recordAll s lines) t := by
  simp [recordAll, List.foldl_append]

/-- Every reachable state is the initial state after the record steps of some
recorded lines. -/
theorem reachable_recordAll (s : State) (h : Reachable s) :
    ∃ lines, (∀ t ∈ lines, Recorded t) ∧ s = recordAll initState lines := by
  induction h with
  | init => exact ⟨[], by simp, rfl⟩
  | step os fuel line out _ _ hout _ ih =>
    obtain ⟨lines, hrec, hs⟩ := ih
    rcases handleInput_state os fuel _ line out hout with h1 | ⟨t, ht, h1⟩
    · exact ⟨lines, hrec, by rw [h1, hs]⟩
    · refine ⟨lines ++ [t], ?_, by rw [h1, hs, recordAll_concat]⟩
      intro u hu
      rcases List.mem_append.mp hu with hu | hu
      · exact hrec u hu
      · simp at hu; rw [hu]; exact ht

/-- The ledger after the record steps of `lines`, slot by slot. -/
theorem recordAll_closed (lines : List (List Char)) :
    (recordAll initState lines).commandCount = lines.length % UINT_RANGE ∧
    (recordAll initState lines).historyBuffer.length = HISTORY_LENGTH ∧
    ∀ i, i < HISTORY_LENGTH → (recordAll initState lines).historyBuffer[i]? =
      some (if i < lines.length then
          { command := lines.getD (lines.length - 1 - i) [],
            commandID := (lines.length - i) % UINT_RANGE }
        else { command := [], commandID := 0 }) := by
  induction lines using List.reverseRecOn with
  | nil =>
    refine ⟨rfl, rfl, ?_⟩
    intro i hi
    show (List.replicate HISTORY_LENGTH _)[i]? = _
    rw [List.getElem?_replicate, if_pos hi]
    simp
  | append_singleton lines t ih =>
    obtain ⟨hc, hl, hb⟩ := ih
    rw [recordAll_concat, recordStep_eq _ _ hl]
    refine ⟨?_, ?_, ?_⟩
    · simp only [hc, List.length_append, List.length_singleton, UINT_RANGE]
      omega
    · simp only [HISTORY_LENGTH] at hl ⊢
      simp [hl]
    · intro i hi
      simp only [HISTORY_LENGTH] at hi
      cases i with
      | zero =>
        have e : (lines.length % UINT_RANGE + 1) % UINT_RANGE =
            (lines.length + 1) % UINT_RANGE := by
          simp only [UINT_RANGE]; omega
        simp [hc, e]
      | succ j =>
        have hj := hb j (by simp only [HISTORY_LENGTH]; omega)
        have htake : (List.take 9 (recordAll initState lines).historyBuffer)[j]? =
            (recordAll initState lines).historyBuffer[j]? := by
          rw [List.getElem?_take]; simp; omega
        simp only [List.getElem?_cons_succ, htake, hj, List.length_append,
          List.length_singleton]
        by_cases hjn : j < lines.length
        · have e1 : lines.length + 1 - 1 - (j + 1) = lines.length - 1 - j := by omega
          have e2 : lines.length + 1 - (j + 1) = lines.length - j := by omega
          have e3 : (lines ++ [t])[lines.length - (j + 1)]?.getD [] =
              lines[lines.length - 1 - j]?.getD [] := by
            rw [List.getElem?_append_left (by omega)]
            congr 2
          simp [hjn, e2, e3]
        · simp [hjn]

theorem heldRecords_recordAll (lines : List (List Char)) (hn : lines.length < UINT_RANGE) :
    heldRecords (recordAll initState lines) =
      (List.range (min lines.length HISTORY_LENGTH)).map (fun i =>
        { command := lines.getD (lines.length - 1 - i) [], commandID := lines.length - i }) := by
  obtain ⟨hc, hl, hb⟩ := recordAll_closed lines
  have hcn : (recordAll initState lines).commandCount = lines.length := by
    rw [hc]; exact Nat.mod_eq_of_lt hn
  apply List.ext_getElem?
  intro i
  simp only [heldRecords, hcn, List.getElem?_take, List.getElem?_map, List.getElem?_range]
  by_cases hi : i < min lines.length HISTORY_LENGTH
  · have h1 : i < HISTORY_LENGTH := lt_of_lt_of_le hi (Nat.min_le_right _ _)
    have h2 : i < lines.length := lt_of_lt_of_le hi (Nat.min_le_left _ _)
    have h3 : (lines.length - i) % UINT_RANGE = lines.length - i :=
      Nat.mod_eq_of_lt (lt_of_le_of_lt (Nat.sub_le _ _) hn)
    simp [hi, hb i h1, h2, h3]
  · have hr : (List.range (min lines.length HISTORY_LENGTH))[i]? = none := by
      rw [List.getElem?_eq_none_iff, List.length_range]; omega
    simp [hi, hr]

/-- The ledger after `n` times the same line, for `n` at least 10. -/
theorem recordAll_replicate (n : Nat) (line : List Char) (hn : HISTORY_LENGTH ≤ n) :
    recordAll initState (List.replicate n line) =
      { historyBuffer := (List.range HISTORY_LENGTH).map (fun i =>
          { command := line, commandID := (n - i) % UINT_RANGE }),
        commandCount := n % UINT_RANGE } := by
  obtain ⟨hc, hl, hb⟩ := recordAll_closed (List.replicate n line)
  rw [List.length_replicate] at hc
  have hbuf : (recordAll initState (List.replicate n line)).historyBuffer =
      (List.range HISTORY_LENGTH).map (fun i =>
        ({ command := line, commandID := (n - i) % UINT_RANGE } : history_t)) := by
    apply List.ext_getElem?
    intro i
    by_cases hi : i < HISTORY_LENGTH
    · have hin : i < n := lt_of_lt_of_le hi hn
      have hget : (List.replicate n line).getD (n - 1 - i) [] = line := by
        simp only [List.getD_eq_getElem?_getD, List.getElem?_replicate]
        rw [if_pos (by omega)]; rfl
      rw [hb i hi, List.length_replicate, if_pos hin, hget]
      simp [List.getElem?_range, hi]
    · have h1 : (recordAll initState (List.replicate n line)).historyBuffer[i]? = none := by
        rw [List.getElem?_eq_none_iff]; omega
      have hr : (List.range HISTORY_LENGTH)[i]? = none := by
        rw [List.getElem?_eq_none_iff, List.length_range]; omega
      rw [h1, List.getElem?_map, hr]
      rfl
  cases hs : recordAll initState (List.replicate n line) with
  | mk b c =>
    rw [hs] at hc hbuf
    simp only at hc hbuf
    rw [hc, hbuf]

theorem printHistory_recordStep (s : State) (line : List Char)
    (hs : s.historyBuffer.length = HISTORY_LENGTH) (hc : s.commandCount + 1 < UINT_RANGE) :
    ∃ earlier, printHistory (recordStep s line) = earlier ++
      [Action.print (formatRecord { command := line, commandID := s.commandCount + 1 })] := by
  rw [printHistory_eq _ (recordStep_length s line hs), recordStep_eq s line hs,
    Nat.mod_eq_of_lt hc]
  simp only [heldRecords]
  obtain ⟨k, hk⟩ : ∃ k, min (s.commandCount + 1) HISTORY_LENGTH = k + 1 := by
    simp only [HISTORY_LENGTH]
    exact ⟨min (s.commandCount + 1) 10 - 1, by omega⟩
  rw [hk, List.take_succ_cons, List.reverse_cons, List.map_append]
  exact ⟨_, rfl⟩

/-! ## The ledger claims -/

/-- C4 (amended): for every state with ten slots whose counter is below its
maximum `2 ^ 32 - 1`, and every line whose token sequence is not empty and whose
first token does not begin with `!`, `handleInput` adds one to the counter and
puts the record (new counter, the raw line) at index 0 before the dispatch
runs: the result is the dispatch run on the recorded state, which is also the
final state.  A `history` line therefore prints itself last, and from the
initial state the record gets identifier 1. -/
theorem C4_record_before_dispatch (os : Os) (fuel : Nat) (s : State) (line t0 : List Char)
    (rest : List (List Char)) (bg : Int)
    (hs : s.historyBuffer.length = HISTORY_LENGTH)
    (hc : s.commandCount + 1 < UINT_RANGE)
    (hp : parseCommand line = some (t0 :: rest, bg))
    (hb : t0[0]? ≠ some '!') :
    (recordStep s line).commandCount = s.commandCount + 1 ∧
    (recordStep s line).historyBuffer[0]? =
      some { command := line, commandID := s.commandCount + 1 } ∧
    handleInput os (fuel + 1) s line =
      dispatch os (handleInput os fuel) (recordStep s line) (t0 :: rest) bg ∧
    (∃ out, handleInput os (fuel + 1) s line = some out ∧ out.state = recordStep s line) ∧
    (t0 = "history".toList → ∃ earlier, handleInput os (fuel + 1) s line =
      some { state := recordStep s line,
             actions := earlier ++ [Action.print
               (formatRecord { command := line, commandID := s.commandCount + 1 })],
             running := true }) ∧
    (s = initState → (recordStep s line).historyBuffer[0]? =
      some { command := line, commandID := 1 }) := by
  have hrec := handleInput_recorded os fuel s line t0 rest bg hp hb
  have heq := recordStep_eq s line hs
  rw [Nat.mod_eq_of_lt hc] at heq
  refine ⟨by rw [heq], by rw [heq]; simp, hrec, ?_, ?_, ?_⟩
  · rw [hrec]
    exact dispatch_not_bang_state os _ _ t0 rest bg hb
  · intro ht
    obtain ⟨earlier, he⟩ := printHistory_recordStep s line hs hc
    refine ⟨earlier, ?_⟩
    rw [hrec, dispatch_not_bang os _ _ t0 rest bg hb, ht, ← he]
    rfl
  · intro hi
    rw [heq, hi]
    simp [initState]

/-- C4, an instance: the line `history` typed first is recorded with identifier
1 and printed by its own listing. -/
theorem C4_record_before_dispatch_witness :
    parseCommand "history\n".toList = some (["history".toList], 0) ∧
    handleInput ⟨1, true⟩ 1 initState "history\n".toList =
      dispatch ⟨1, true⟩ (handleInput ⟨1, true⟩ 0) (recordStep initState "history\n".toList)
        ["history".toList] 0 ∧
    (recordStep initState "history\n".toList).historyBuffer[0]? =
      some { command := "history\n".toList, commandID := 1 } :=
  have h := C4_record_before_dispatch ⟨1, true⟩ 0 initState "history\n".toList
    "history".toList [] 0 (by decide) (by decide) (by decide) (by decide)
  ⟨by decide, h.2.2.1, h.2.2.2.2.2 rfl⟩

/-- C4 as stated fails when the counter is at its maximum: after 4294967295
recorded lines the line `history` leaves the counter at 0, not one more, and
its listing prints nothing, so it does not list itself. -/
theorem C4_counterexample_counter_wraps :
    (handleInput ⟨1, true⟩ 1
        (recordAll initState (List.replicate 4294967295 "ls\n".toList))
        "history\n".toList).map (fun out => (out.state.commandCount, out.actions)) =
      some (0, []) := by
  rw [recordAll_replicate _ _ (by decide)]
  decide

/-- C5 (amended): from the initial state, after the record steps of any `n`
command lines with `n` below `2 ^ 32`, the counter is `n`, the ledger holds
exactly `min(n,10)` records, the record at index `i` has identifier `n - i` and
the text of the `(n-i)`-th line, the other slots are still zeroed, and the held
identifiers are pairwise distinct.  After 11 lines the held identifiers are 11
down to 2. -/
theorem C5_ledger_after_n_records (lines : List (List Char))
    (hn : lines.length < UINT_RANGE) :
    (recordAll initState lines).commandCount = lines.length ∧
    (recordAll initState lines).historyBuffer.length = HISTORY_LENGTH ∧
    heldRecords (recordAll initState lines) =
      (List.range (min lines.length HISTORY_LENGTH)).map (fun i =>
        { command := lines.getD (lines.length - 1 - i) [], commandID := lines.length - i }) ∧
    (∀ i, min lines.length HISTORY_LENGTH ≤ i → i < HISTORY_LENGTH →
      (recordAll initState lines).historyBuffer[i]? = some { command := [], commandID := 0 }) ∧
    ((heldRecords (recordAll initState lines)).map (fun r => r.commandID)).Nodup ∧
    (lines.length = 11 →
      (heldRecords (recordAll initState lines)).map (fun r => r.commandID) =
        [11, 10, 9, 8, 7, 6, 5, 4, 3, 2]) := by
  obtain ⟨hc, hl, hb⟩ := recordAll_closed lines
  have hheld := heldRecords_recordAll lines hn
  refine ⟨by rw [hc]; exact Nat.mod_eq_of_lt hn, hl, hheld, ?_, ?_, ?_⟩
  · intro i h1 h2
    have : ¬ i < lines.length := by
      simp only [HISTORY_LENGTH] at h1 h2
      omega
    rw [hb i h2, if_neg this]
  · rw [hheld, List.map_map]
    apply List.Nodup.map_on _ (List.nodup_range _)
    intro x hx y hy hxy
    simp only [List.mem_range] at hx hy
    simp only [Function.comp] at hxy
    have h1 : x < lines.length := lt_of_lt_of_le hx (Nat.min_le_left _ _)
    have h2 : y < lines.length := lt_of_lt_of_le hy (Nat.min_le_left _ _)
    omega
  · intro h11
    rw [hheld, List.map_map, h11]
    rfl

/-- C5, an instance: after eleven lines the ledger holds identifiers 11 down to
2. -/
theorem C5_ledger_after_n_records_witness :
    (heldRecords (recordAll initState
        ["a\n".toList, "b\n".toList, "c\n".toList, "d\n".toList, "e\n".toList,
         "f\n".toList, "g\n".toList, "h\n".toList, "i\n".toList, "j\n".toList,
         "k\n".toList])).map (fun r => r.commandID) =
      [11, 10, 9, 8, 7, 6, 5, 4, 3, 2] :=
  (C5_ledger_after_n_records _ (by decide)).2.2.2.2.2 rfl

/-- C5 as stated fails for `n = 2 ^ 32`: the counter has wrapped to 0, the
record at index 0 has identifier 0 instead of `n`, and no record counts as
held. -/
theorem C5_counterexample_counter_wraps :
    (recordAll initState (List.replicate 4294967296 "ls\n".toList)).commandCount = 0 ∧
    ((recordAll initState (List.replicate 4294967296 "ls\n".toList)).historyBuffer[0]?).map
      (fun r => r.commandID) = some 0 ∧
    heldRecords (recordAll initState (List.replicate 4294967296 "ls\n".toList)) = [] := by
  rw [recordAll_replicate _ _ (by decide)]
  decide

/-- C6: for every ledger content `b` of ten slots and every record `r`,
`recordCommand` gives the ledger with `r` at index 0 and the old slot `i` at
index `i + 1` for `i` from 0 to 8; the old slot 9 is dropped, the ledger keeps
ten slots and the counter is not changed. -/
theorem C6_recordCommand_shift (b : List history_t) (c : Nat) (r : history_t)
    (hb : b.length = HISTORY_LENGTH) :
    (recordCommand { historyBuffer := b, commandCount := c } r).historyBuffer = r :: b.take 9 ∧
    (recordCommand { historyBuffer := b, commandCount := c } r).historyBuffer[0]? = some r ∧
    (∀ i, i ≤ 8 →
      (recordCommand { historyBuffer := b, commandCount := c } r).historyBuffer[i + 1]? = b[i]?) ∧
    (recordCommand { historyBuffer := b, commandCount := c } r).historyBuffer.length =
      HISTORY_LENGTH ∧
    (recordCommand { historyBuffer := b, commandCount := c } r).commandCount = c := by
  have h : (recordCommand { historyBuffer := b, commandCount := c } r).historyBuffer =
      r :: b.take 9 := by
    simp only [recordCommand, HISTORY_LENGTH]
    exact shiftLoop_set b r hb
  simp only [HISTORY_LENGTH] at hb
  refine ⟨h, by rw [h]; simp, ?_, by rw [h]; simp [hb, HISTORY_LENGTH], rfl⟩
  intro i hi
  rw [h, List.getElem?_cons_succ, List.getElem?_take]
  simp; omega

/-- C6, an instance: recording into the zeroed ledger. -/
theorem C6_recordCommand_shift_witness :
    (recordCommand initState { command := "ls\n".toList, commandID := 1 }).historyBuffer =
      { command := "ls\n".toList, commandID := 1 } :: initState.historyBuffer.take 9 :=
  (C6_recordCommand_shift initState.historyBuffer 0 { command := "ls\n".toList, commandID := 1 }
    (by decide)).1

/-! ## Replay -/

theorem checkDigitsLoop_digits (ds : List Char) :
    ∀ (pre : List Char) (fuel : Nat) (hasDigits : Int), ds.length ≤ fuel →
      (∀ c ∈ ds, isdigit c = true) →
      checkDigitsLoop (pre ++ ds) fuel pre.length hasDigits = if ds = [] then hasDigits else 1 := by
  induction ds with
  | nil =>
    intro pre fuel hasDigits _ _
    cases fuel <;> simp [checkDigitsLoop]
  | cons c cs ih =>
    intro pre fuel hasDigits hf hd
    cases fuel with
    | zero => simp at hf
    | succ f =>
      have hget : (pre ++ c :: cs)[pre.length]? = some c := by
        rw [getElem?_append_length]; rfl
      have hc : isdigit c = true := hd c (by simp)
      have h := ih (pre ++ [c]) f 1 (by simpa using hf) (fun x hx => hd x (by simp [hx]))
      simp only [List.append_assoc, List.singleton_append, List.length_append,
        List.length_singleton] at h
      simp only [checkDigitsLoop, hget, hc, h]
      by_cases hcs : cs = [] <;> simp [hcs]

theorem checkDigits_bang_digits (ds : List Char) (hne : ds ≠ [])
    (hd : ∀ c ∈ ds, isdigit c = true) : checkDigits ('!' :: ds) = 1 := by
  have h := checkDigitsLoop_digits ds [ '!'] ('!' :: ds).length 0 (by simp) hd
  simp only [List.singleton_append, List.length_singleton, if_neg hne] at h
  simp only [checkDigits]
  rw [if_neg (by simp), h]

theorem searchLoop_not_found (handle : State → List Char → Option Outcome) (s : State)
    (numCmd : List Char) (d : Nat) :
    ∀ (k i0 : Nat),
      (∀ j, i0 ≤ j → j < i0 + k →
        (s.historyBuffer.getD j { command := [], commandID := 0 }).commandID ≠ d) →
      searchLoop handle s numCmd d k i0 =
        some { state := s, actions := [Action.print (numCmd ++ ": event not found\n".toList)],
               running := true } := by
  intro k
  induction k with
  | zero => intro i0 _; rfl
  | succ k ih =>
    intro i0 hne
    simp only [searchLoop]
    rw [if_neg (hne i0 (le_refl _) (by omega))]
    exact ih (i0 + 1) (fun j hj1 hj2 => hne j (by omega) (by omega))

/-- The dispatch of a line whose first token is `!` and digits: the search of
`executeOldCommand` for the number the digits spell. -/
theorem handleInput_replay (os : Os) (fuel : Nat) (s : State) (line ds : List Char)
    (rest : List (List Char)) (bg : Int) (v : Int)
    (hp : parseCommand line = some (('!' :: ds) :: rest, bg))
    (hne : ds ≠ []) (hd : ∀ c ∈ ds, isdigit c = true) (hv : atoi ds = some v) :
    handleInput os (fuel + 1) s line =
      searchLoop (handleInput os fuel) s ('!' :: ds) (v % (UINT_RANGE : Int)).toNat
        HISTORY_LENGTH 0 := by
  have hcd := checkDigits_bang_digits ds hne hd
  simp [handleInput, hp, dispatch, hcd, builtInCommands, executeOldCommand, hv]

/-- In a reachable state a held record stands in its slot, its text is a
recorded line, and no slot before it carries its identifier. -/
theorem reachable_held (s : State) (h : Reachable s) (i : Nat) (r : history_t)
    (hi : (heldRecords s)[i]? = some r) :
    i < HISTORY_LENGTH ∧
    s.historyBuffer.getD i { command := [], commandID := 0 } = r ∧
    Recorded r.command ∧ r.commandID < UINT_RANGE ∧
    ∀ j, j < i →
      (s.historyBuffer.getD j { command := [], commandID := 0 }).commandID ≠ r.commandID := by
  obtain ⟨lines, hrec, hs⟩ := reachable_recordAll s h
  obtain ⟨hc, hl, hb⟩ := recordAll_closed lines
  rw [← hs] at hc hl hb
  simp only [heldRecords, List.getElem?_take] at hi
  split at hi
  · rename_i hlt
    have hi10 : i < HISTORY_LENGTH := lt_of_lt_of_le hlt (Nat.min_le_right _ _)
    have hic : i < s.commandCount := lt_of_lt_of_le hlt (Nat.min_le_left _ _)
    have hin : i < lines.length := by
      rw [hc] at hic
      exact lt_of_lt_of_le hic (Nat.mod_le _ _)
    have hbi := hb i hi10
    rw [hi, if_pos hin] at hbi
    injection hbi with hbi
    refine ⟨hi10, ?_, ?_, ?_, ?_⟩
    · simp [List.getD_eq_getElem?_getD, hi]
    · rw [hbi]
      have hidx : lines.length - 1 - i < lines.length := by omega
      have : lines.getD (lines.length - 1 - i) [] = lines[lines.length - 1 - i] := by
        simp [List.getD_eq_getElem?_getD, List.getElem?_eq_getElem hidx]
      simp only [this]
      exact hrec _ (List.getElem_mem _)
    · rw [hbi]
      exact Nat.mod_lt _ (by decide)
    · intro j hj
      have hbj := hb j (lt_trans hj hi10)
      rw [if_pos (lt_trans hj hin)] at hbj
      simp only [List.getD_eq_getElem?_getD, hbj, Option.getD_some, hbi]
      simp only [HISTORY_LENGTH] at hi10
      simp only [UINT_RANGE]
      omega
  · exact absurd hi (by simp)

/-- A replay whose number no slot of the ledger carries prints the miss
message and nothing else, and changes nothing. -/
theorem handleInput_replay_miss (os : Os) (fuel : Nat) (s : State) (line ds : List Char)
    (rest : List (List Char)) (bg : Int) (v : Int)
    (hp : parseCommand line = some (('!' :: ds) :: rest, bg))
    (hne : ds ≠ []) (hd : ∀ c ∈ ds, isdigit c = true) (hv : atoi ds = some v)
    (hmiss : ∀ j, j < HISTORY_LENGTH →
      (s.historyBuffer.getD j { command := [], commandID := 0 }).commandID ≠
        (v % (UINT_RANGE : Int)).toNat) :
    handleInput os (fuel + 1) s line =
      some { state := s,
             actions := [Action.print (('!' :: ds) ++ ": event not found\n".toList)],
             running := true } := by
  rw [handleInput_replay os fuel s line ds rest bg v hp hne hd hv]
  exact searchLoop_not_found _ s _ _ HISTORY_LENGTH 0 (fun j _ hj => hmiss j (by omega))

/-! ## The replay claims -/

theorem reachable_statePwd : Reachable statePwd :=
  Reachable.step shellOs 1 "pwd\n".toList
    { state := statePwd, actions := [Action.fork, Action.waitpid 4242 0], running := true }
    Reachable.init (by decide) (by decide) rfl

theorem reachable_statePwdLs : Reachable statePwdLs :=
  Reachable.step shellOs 1 "ls\n".toList
    { state := statePwdLs, actions := [Action.fork, Action.waitpid 4242 0], running := true }
    reachable_statePwd (by decide) (by decide) rfl

/-- C8, the failing input: in the initial state the line `!0` finds the zeroed
slot 0, whose identifier is 0, handles its empty text and prints nothing; the
miss message is not printed. -/
theorem C8_bang_zero_prints_nothing (os : Os) :
    handleInput os 2 initState "!0\n".toList =
      some { state := initState, actions := [], running := true } := by
  rfl

/-! ## The replay pattern -/

theorem checkDigitsLoop_spec (ds : List Char) :
    ∀ (pre : List Char) (fuel : Nat) (hasDigits : Int), ds.length ≤ fuel →
      checkDigitsLoop (pre ++ ds) fuel pre.length hasDigits =
        if ds.all isdigit = true then (if ds = [] then hasDigits else 1) else 0 := by
  induction ds with
  | nil =>
    intro pre fuel hasDigits _
    cases fuel <;> simp [checkDigitsLoop]
  | cons c cs ih =>
    intro pre fuel hasDigits hf
    cases fuel with
    | zero => simp at hf
    | succ f =>
      have hget : (pre ++ c :: cs)[pre.length]? = some c := by
        rw [getElem?_append_length]; rfl
      have h := ih (pre ++ [c]) f 1 (by simpa using hf)
      simp only [List.append_assoc, List.singleton_append, List.length_append,
        List.length_singleton] at h
      simp only [checkDigitsLoop, hget, h]
      cases hc : isdigit c
      · simp [hc]
      · by_cases hcs : cs = [] <;> simp [hc, hcs]

theorem checkDigits_values (token : List Char) :
    checkDigits token = 1 ∨ checkDigits token = 0 := by
  unfold checkDigits
  split_ifs with h
  · exact Or.inr rfl
  · cases token with
    | nil => simp at h
    | cons c ds =>
      have hl := checkDigitsLoop_spec ds [c] (c :: ds).length 0 (by simp)
      simp only [List.singleton_append, List.length_singleton] at hl
      rw [hl]
      split_ifs <;> simp

theorem checkDigits_eq_one_iff (token : List Char) :
    checkDigits token = 1 ↔
      ∃ ds, token = '!' :: ds ∧ ds ≠ [] ∧ ∀ c ∈ ds, isdigit c = true := by
  constructor
  · intro h
    unfold checkDigits at h
    split_ifs at h with h0
    · exact absurd h (by decide)
    · cases token with
      | nil => simp at h0
      | cons c ds =>
        have hc : c = '!' := by simpa using h0
        have hl := checkDigitsLoop_spec ds [c] (c :: ds).length 0 (by simp)
        simp only [List.singleton_append, List.length_singleton] at hl
        rw [hl] at h
        split_ifs at h with h1 h2
        · exact absurd h (by decide)
        · exact ⟨ds, by rw [hc], h2, by simpa using h1⟩
        · exact absurd h (by decide)
  · rintro ⟨ds, rfl, hne, hd⟩
    exact checkDigits_bang_digits ds hne hd

theorem bang_ne_builtin (t0 : List Char) (h : t0[0]? = some '!') :
    t0 ≠ "exit".toList ∧ t0 ≠ "history".toList := by
  constructor <;> (intro h1; rw [h1] at h; exact absurd h (by decide))

/-- A line whose first token begins with `!` and is not a replay token goes to
`executeCommand`, unrecorded. -/
theorem handleInput_bang_malformed (os : Os) (fuel : Nat) (s : State) (line t0 : List Char)
    (rest : List (List Char)) (bg : Int) (hp : parseCommand line = some (t0 :: rest, bg))
    (hb : t0[0]? = some '!') (hc : checkDigits t0 = 0) :
    handleInput os (fuel + 1) s line = executeCommand os s (t0 :: rest) bg := by
  obtain ⟨h1, h2⟩ := bang_ne_builtin t0 hb
  have e1 : (if t0[0]? ≠ some '!' then recordStep s line else s) = s :=
    if_neg (fun h => h hb)
  have e2 : ¬ (t0 = "exit".toList ∨ t0 = "history".toList ∨ (0 : Int) ≠ 0) := by
    rintro (h | h | h)
    · exact h1 h
    · exact h2 h
    · exact h rfl
  simp only [handleInput, hp, dispatch, hc, e1]
  rw [if_neg e2]

/-! ## The replay pattern claim -/

/-- C11: for every token `checkDigits` returns 1 exactly when the token is `!`
followed by one or more characters that are all decimal digits, and 0
otherwise; `!`, `!abc`, `!1a` and `abc` give 0.  A line whose first token
begins with `!` but fails the pattern is handed to `executeCommand` with its
whole token sequence and its background flag. -/
theorem C11_checkDigits_pattern :
    (∀ token : List Char, checkDigits token = 1 ↔
      ∃ ds, token = '!' :: ds ∧ ds ≠ [] ∧ ∀ c ∈ ds, isdigit c = true) ∧
    (∀ token : List Char, checkDigits token ≠ 1 → checkDigits token = 0) ∧
    checkDigits "!".toList = 0 ∧ checkDigits "!abc".toList = 0 ∧
    checkDigits "!1a".toList = 0 ∧ checkDigits "abc".toList = 0 ∧
    checkDigits "!42".toList = 1 ∧
    (∀ (os : Os) (fuel : Nat) (s : State) (line t0 : List Char) (rest : List (List Char))
        (bg : Int), parseCommand line = some (t0 :: rest, bg) → t0[0]? = some '!' →
        checkDigits t0 = 0 →
        handleInput os (fuel + 1) s line = executeCommand os s (t0 :: rest) bg) := by
  refine ⟨checkDigits_eq_one_iff, ?_, by decide, by decide, by decide, by decide, by decide,
    handleInput_bang_malformed⟩
  intro token h
  rcases checkDigits_values token with h1 | h0
  · exact absurd h1 h
  · exact h0

/-- C11, an instance: the line `!abc &` is handed to `executeCommand` with the
token `!abc` and background 1. -/
theorem C11_checkDigits_pattern_witness :
    handleInput shellOs 1 statePwd "!abc &\n".toList =
      executeCommand shellOs statePwd ["!abc".toList] 1 :=
  C11_checkDigits_pattern.2.2.2.2.2.2.2 shellOs 0 statePwd "!abc &\n".toList "!abc".toList [] 1
    (by decide) (by decide) (by decide)

/-! ## Replay of a held record -/

/-- Handling a recorded line does not depend on the fuel left for replays. -/
theorem handleInput_recorded_fuel (os : Os) (f g : Nat) (s : State) (line : List Char)
    (h : Recorded line) :
    handleInput os (f + 1) s line = handleInput os (g + 1) s line := by
  obtain ⟨t0, rest, bg, hp, hb⟩ := h
  rw [handleInput_recorded os f s line t0 rest bg hp hb,
    handleInput_recorded os g s line t0 rest bg hp hb,
    dispatch_not_bang os _ _ t0 rest bg hb, dispatch_not_bang os _ _ t0 rest bg hb]

theorem handleInput_empty (os : Os) (fuel : Nat) (s : State) (line : List Char) (bg : Int)
    (hp : parseCommand line = some ([], bg)) :
    handleInput os (fuel + 1) s line = some { state := s, actions := [], running := true } := by
  simp only [handleInput, hp]

theorem parseCommandRef_nil_iff (line : List Char) :
    (parseCommandRef line).1 = [] ↔ (tokenRuns line = [] ∨ tokenRuns line = [[ '&']]) := by
  rcases tokenRuns_cases line with hR | ⟨init, li, lc, hR⟩
  · simp [parseCommandRef, hR]
  · by_cases h1 : li ++ [lc] = [ '&']
    · have e : (parseCommandRef line).1 = init := by
        simp [parseCommandRef, hR, h1]
      rw [e, hR, h1]
      constructor
      · intro h; right; rw [h]; rfl
      · rintro (h | h)
        · simp at h
        · cases init with
          | nil => rfl
          | cons a as =>
            have := congrArg List.length h
            simp at this
    · have hne : (parseCommandRef line).1 ≠ [] := by
        by_cases h2 : lc = '&'
        · have hli : li ≠ [] := by
            intro h
            exact h1 (by rw [h, h2]; rfl)
          simp [parseCommandRef, hR, h2, hli]
        · simp [parseCommandRef, hR, h1, h2]
      constructor
      · intro h; exact absurd h hne
      · rintro (h | h)
        · rw [hR] at h; simp at h
        · rw [hR] at h
          cases init with
          | nil =>
            simp only [List.nil_append, List.cons.injEq, and_true] at h
            exact absurd h h1
          | cons a as =>
            have := congrArg List.length h
            simp at this

/-! ## The empty command claim -/

/-- C14: for every state and every input line whose token sequence after
parsing is empty, `handleInput` returns with the ledger and the counter
unchanged and without any action: nothing printed, no process launched.  The
token sequence is empty exactly when the line has no token or `&` as its only
token; the empty line, a blank line and the line `&` are such lines. -/
theorem C14_empty_command_noop :
    (∀ (os : Os) (fuel : Nat) (s : State) (line : List Char) (bg : Int),
      parseCommand line = some ([], bg) →
      handleInput os (fuel + 1) s line = some { state := s, actions := [], running := true }) ∧
    (∀ line : List Char, (∃ bg, parseCommand line = some ([], bg)) ↔
      (tokenRuns line = [] ∨ tokenRuns line = [[ '&']])) ∧
    parseCommand "".toList = some ([], 0) ∧
    parseCommand " \t \n".toList = some ([], 0) ∧
    parseCommand "&\n".toList = some ([], 1) ∧
    handleInput shellOs 1 statePwd "&\n".toList =
      some { state := statePwd, actions := [], running := true } := by
  refine ⟨handleInput_empty, ?_, by decide, by decide, by decide, by decide⟩
  intro line
  rw [← parseCommandRef_nil_iff, parseCommand_eq_ref]
  constructor
  · rintro ⟨bg, h⟩
    injection h with h
    rw [h]
  · intro h
    exact ⟨(parseCommandRef line).2, by rw [← h]⟩


/-- C14, an instance: the blank line changes nothing. -/
theorem C14_empty_command_noop_witness :
    handleInput shellOs 1 statePwdLs "   \n".toList =
      some { state := statePwdLs, actions := [], running := true } :=
  C14_empty_command_noop.1 shellOs 0 statePwdLs "   \n".toList 0 (by decide)

/-! ## Shape of the tokens -/

theorem tokenRuns_no_space (line : List Char) :
    ∀ t ∈ tokenRuns line, ∀ c ∈ t, isspace c = false := by
  induction line using tokenRuns_induction with
  | hnil => simp [tokenRuns_nil]
  | hspace c cs hc ih => rw [tokenRuns_cons_space c cs hc]; exact ih
  | htok c cs hc ih =>
    rw [tokenRuns_cons_nonspace c cs hc]
    intro t ht x hx
    rcases List.mem_cons.mp ht with ht | ht
    · rw [ht] at hx
      rcases List.mem_cons.mp hx with hx | hx
      · rw [hx]; exact hc
      · have := List.mem_takeWhile_imp (p := fun c => !isspace c) hx
        simpa using this
    · exact ih t ht x hx

theorem parseCommandRef_tokens (line : List Char) :
    ∀ t ∈ (parseCommandRef line).1, t ≠ [] ∧ ∀ c ∈ t, isspace c = false := by
  have hne := tokenRuns_ne_nil line
  have hns := tokenRuns_no_space line
  rcases tokenRuns_cases line with hR | ⟨init, li, lc, hR⟩
  · simp [parseCommandRef, hR]
  · rw [hR] at hne hns
    have hinit : ∀ t ∈ init, t ≠ [] ∧ ∀ c ∈ t, isspace c = false :=
      fun t ht => ⟨hne t (by simp [ht]), hns t (by simp [ht])⟩
    by_cases h1 : li ++ [lc] = [ '&']
    · have e : (parseCommandRef line).1 = init := by
        simp [parseCommandRef, hR, h1]
      rw [e]; exact hinit
    · by_cases h2 : lc = '&'
      · have hli : li ≠ [] := by
          intro h
          exact h1 (by rw [h, h2]; rfl)
        have e : (parseCommandRef line).1 = init ++ [li] := by
          simp [parseCommandRef, hR, h2, hli]
        rw [e]
        intro t ht
        rcases List.mem_append.mp ht with ht | ht
        · exact hinit t ht
        · simp only [List.mem_singleton] at ht
          rw [ht]
          exact ⟨hli, fun c hc => hns (li ++ [lc]) (by simp) c (by simp [hc])⟩
      · have e : (parseCommandRef line).1 = init ++ [li ++ [lc]] := by
          simp [parseCommandRef, hR, h1, h2]
        rw [e]
        intro t ht
        exact ⟨hne t ht, hns t ht⟩

/-! ## The token shape claim -/

/-- C17: for every input line, every token `parseCommand` returns is a
non-empty string without any whitespace character, background detection
included: stripping a trailing `&` never leaves an empty token, since a last
token that is exactly `&` is removed whole. -/
theorem C17_tokens_nonempty_no_space (line : List Char) :
    ∃ tokens background, parseCommand line = some (tokens, background) ∧
      ∀ t ∈ tokens, t ≠ [] ∧ ∀ c ∈ t, isspace c = false :=
  ⟨(parseCommandRef line).1, (parseCommandRef line).2, parseCommand_eq_ref line,
    parseCommandRef_tokens line⟩


/-! ## The calls of the extraction loop -/

theorem tokenCalls_spec (cmdLine : List Char) :
    ∀ (k : Nat) (pre s : List Char), cmdLine = pre ++ s → k ≤ (tokenRuns s).length →
      ∀ r ∈ tokenCalls cmdLine k pre.length,
        ∃ e : Nat, r.1 = Int.ofNat e ∧ r.2 < e ∧ e ≤ cmdLine.length := by
  intro k
  induction k with
  | zero => intro pre s _ _ r hr; simp [tokenCalls] at hr
  | succ k ih =>
    intro pre s hcmd hk r hr
    cases hd : s.dropWhile isspace with
    | nil =>
      rw [← tokenRuns_dropWhile_space, hd, tokenRuns_nil] at hk
      simp at hk
    | cons c cs =>
      have hc : isspace c = false := by
        have := List.head_dropWhile_not isspace s (by rw [hd]; simp)
        simpa [hd] using this
      have hruns : tokenRuns s = (c :: cs.takeWhile (fun c => !isspace c)) ::
          tokenRuns (cs.dropWhile (fun c => !isspace c)) := by
        rw [← tokenRuns_dropWhile_space, hd, tokenRuns_cons_nonspace c cs hc]
      have htw : (c :: cs).takeWhile (fun c => !isspace c) =
          c :: cs.takeWhile (fun c => !isspace c) := by
        simp [List.takeWhile_cons, hc]
      have hsplit : s = s.takeWhile isspace ++ c :: cs := by
        have := List.takeWhile_append_dropWhile isspace s
        rw [hd] at this
        exact this.symm
      have hsplit2 : c :: cs = (c :: cs.takeWhile (fun c => !isspace c)) ++
          cs.dropWhile (fun c => !isspace c) := by
        simp
      have hcmd2 : cmdLine = (pre ++ s.takeWhile isspace ++
          (c :: cs.takeWhile (fun c => !isspace c))) ++
          cs.dropWhile (fun c => !isspace c) := by
        rw [hcmd, List.append_assoc, List.append_assoc, ← hsplit2, ← hsplit]
      have hrec := ih _ _ hcmd2 (by rw [hruns] at hk; simpa using hk)
      have hnt := getNextToken_some pre s cs c hd
      rw [← hcmd, htw] at hnt
      simp only [List.length_append] at hrec
      simp only [tokenCalls, hnt, List.mem_cons] at hr
      have e1 : (Int.ofNat (pre.length + (s.takeWhile isspace).length +
          (c :: cs.takeWhile (fun c => !isspace c)).length)).toNat =
          pre.length + (s.takeWhile isspace).length +
          (c :: cs.takeWhile (fun c => !isspace c)).length := Int.toNat_ofNat _
      rw [e1] at hr
      rcases hr with hr | hr
      · refine ⟨_, by rw [hr], by rw [hr]; simp, ?_⟩
        have := congrArg List.length hcmd2
        simp only [List.length_append] at this
        omega
      · exact hrec r hr

theorem tokenRuns_eq_nil_dropWhile (s : List Char) (h : tokenRuns s = []) :
    s.dropWhile isspace = [] := by
  cases hd : s.dropWhile isspace with
  | nil => rfl
  | cons c cs =>
    have hc : isspace c = false := by
      have := List.head_dropWhile_not isspace s (by rw [hd]; simp)
      simpa [hd] using this
    rw [← tokenRuns_dropWhile_space, hd, tokenRuns_cons_nonspace c cs hc] at h
    simp at h

theorem tokenCalls_last (cmdLine : List Char) :
    ∀ (k : Nat) (pre s : List Char), cmdLine = pre ++ s → k = (tokenRuns s).length →
      ((tokenCalls cmdLine (k + 1) pre.length).getLast?).map Prod.fst = some END_OF_STRING := by
  intro k
  induction k with
  | zero =>
    intro pre s hcmd hk
    have hd := tokenRuns_eq_nil_dropWhile s (List.length_eq_zero.mp hk.symm)
    have hnt := getNextToken_none pre s hd
    rw [← hcmd] at hnt
    simp [tokenCalls, hnt]
  | succ k ih =>
    intro pre s hcmd hk
    cases hd : s.dropWhile isspace with
    | nil =>
      rw [← tokenRuns_dropWhile_space, hd, tokenRuns_nil] at hk
      simp at hk
    | cons c cs =>
      have hc : isspace c = false := by
        have := List.head_dropWhile_not isspace s (by rw [hd]; simp)
        simpa [hd] using this
      have hruns : tokenRuns s = (c :: cs.takeWhile (fun c => !isspace c)) ::
          tokenRuns (cs.dropWhile (fun c => !isspace c)) := by
        rw [← tokenRuns_dropWhile_space, hd, tokenRuns_cons_nonspace c cs hc]
      have htw : (c :: cs).takeWhile (fun c => !isspace c) =
          c :: cs.takeWhile (fun c => !isspace c) := by
        simp [List.takeWhile_cons, hc]
      have hsplit : s = s.takeWhile isspace ++ c :: cs := by
        have := List.takeWhile_append_dropWhile isspace s
        rw [hd] at this
        exact this.symm
      have hsplit2 : c :: cs = (c :: cs.takeWhile (fun c => !isspace c)) ++
          cs.dropWhile (fun c => !isspace c) := by
        simp
      have hcmd2 : cmdLine = (pre ++ s.takeWhile isspace ++
          (c :: cs.takeWhile (fun c => !isspace c))) ++
          cs.dropWhile (fun c => !isspace c) := by
        rw [hcmd, List.append_assoc, List.append_assoc, ← hsplit2, ← hsplit]
      have hrec := ih _ _ hcmd2 (by rw [hruns] at hk; simpa using hk)
      have hnt := getNextToken_some pre s cs c hd
      rw [← hcmd, htw] at hnt
      simp only [List.length_append] at hrec
      have e1 : (Int.ofNat (pre.length + (s.takeWhile isspace).length +
          (c :: cs.takeWhile (fun c => !isspace c)).length)).toNat =
          pre.length + (s.takeWhile isspace).length +
          (c :: cs.takeWhile (fun c => !isspace c)).length := Int.toNat_ofNat _
      rw [tokenCalls]
      simp only [hnt, e1]
      cases htc : tokenCalls cmdLine (k + 1) (pre.length + (s.takeWhile isspace).length +
          (c :: cs.takeWhile (fun c => !isspace c)).length) with
      | nil => simp [tokenCalls] at htc
      | cons b bs =>
        rw [htc] at hrec
        rw [List.getLast?_cons_cons]
        exact hrec


/-- The extraction loop copies, for each call, `tokenLength` characters from
`start`. -/
theorem extractTokens_eq_map_tokenCalls (cmdLine : List Char) :
    ∀ (k start : Nat),
      (∀ r ∈ tokenCalls cmdLine k start, ¬ (r.1 - Int.ofNat r.2 < 0)) →
      extractTokens cmdLine k start =
        some ((tokenCalls cmdLine k start).map
          (fun r => (cmdLine.drop r.2).take (r.1 - Int.ofNat r.2).toNat)) := by
  intro k
  induction k with
  | zero => intro start _; rfl
  | succ k ih =>
    intro start h
    have h0 := h (getNextToken cmdLine start) (by simp [tokenCalls])
    have hrec := ih (getNextToken cmdLine start).1.toNat
      (fun r hr => h r (by simp [tokenCalls, hr]))
    simp only [extractTokens, tokenCalls, if_neg h0, hrec, List.map_cons]

/-! ## The token count claim -/

/-- C19: for every input line `countTokens` is the number of maximal runs of
non-whitespace characters.  In the extraction loop of `parseCommand`, run for
that many iterations, no call of `getNextToken` returns `END_OF_STRING`, every
`tokenLength = end - start` is at least 1 and `start <= end <= strlen`; the
tokens copied are those runs, and one more call would return `END_OF_STRING`:
the count is exactly what the calls can extract. -/
theorem C19_countTokens_matches_getNextToken (line : List Char) :
    countTokens line = (tokenRuns line).length ∧
    (∀ r ∈ tokenCalls line (countTokens line) 0,
      r.1 ≠ END_OF_STRING ∧ 1 ≤ r.1 - Int.ofNat r.2 ∧ Int.ofNat r.2 ≤ r.1 ∧
        r.1 ≤ Int.ofNat line.length) ∧
    extractTokens line (countTokens line) 0 =
      some ((tokenCalls line (countTokens line) 0).map
        (fun r => (line.drop r.2).take (r.1 - Int.ofNat r.2).toNat)) ∧
    extractTokens line (countTokens line) 0 = some (tokenRuns line) ∧
    ((tokenCalls line (countTokens line + 1) 0).getLast?).map Prod.fst = some END_OF_STRING ∧
    tokenCalls "ls  -l &".toList 4 0 = [(2, 0), (6, 4), (8, 7), (END_OF_STRING, 8)] := by
  have hcalls : ∀ r ∈ tokenCalls line (countTokens line) 0,
      ∃ e : Nat, r.1 = Int.ofNat e ∧ r.2 < e ∧ e ≤ line.length :=
    tokenCalls_spec line (countTokens line) [] line rfl (by rw [countTokens_spec])
  refine ⟨countTokens_spec line, ?_, ?_, extractTokens_all line, ?_, by decide⟩
  · intro r hr
    obtain ⟨e, he, h1, h2⟩ := hcalls r hr
    rw [he]
    simp only [END_OF_STRING, Int.ofNat_eq_coe]
    omega
  · apply extractTokens_eq_map_tokenCalls
    intro r hr
    obtain ⟨e, he, h1, h2⟩ := hcalls r hr
    rw [he]
    simp only [Int.ofNat_eq_coe]
    omega
  · exact tokenCalls_last line (countTokens line) [] line rfl (countTokens_spec line)


/-! ## The reaper -/

theorem handlerLoop_spec (pids : List Int) (last : Int) (more : List Int)
    (hp : ∀ p ∈ pids, 0 < p) (hl : last ≤ 0) :
    handlerLoop (pids ++ last :: more) =
      some (List.replicate (pids.length + 1) (Action.waitpid (-1) WNOHANG)) := by
  induction pids with
  | nil =>
    have : ¬ last > 0 := by omega
    simp [handlerLoop, this]
  | cons p ps ih =>
    have hp0 : p > 0 := hp p (by simp)
    have h := ih (fun q hq => hp q (by simp [hq]))
    rw [List.cons_append, handlerLoop, if_pos hp0, h]
    rfl

theorem handlerLoop_calls (results : List Int) :
    ∀ calls, handlerLoop results = some calls →
      ∀ a ∈ calls, a = Action.waitpid (-1) WNOHANG := by
  induction results with
  | nil => intro calls h; simp [handlerLoop] at h
  | cons r rs ih =>
    intro calls h a ha
    simp only [handlerLoop] at h
    split_ifs at h
    · cases hrs : handlerLoop rs with
      | none => rw [hrs] at h; simp at h
      | some c =>
        rw [hrs] at h
        injection h with h
        rw [← h] at ha
        rcases List.mem_cons.mp ha with ha | ha
        · exact ha
        · exact ih c hrs a ha
    · injection h with h
      rw [← h] at ha
      simpa using ha

/-! ## The reaper claim -/

/-- C18: for every state, `handler` leaves the ledger and the counter as they
are, and all it does is the call `waitpid(-1, NULL, WNOHANG)`, the collection
of any terminated child that does not block: once for each child collected
(a positive return value) and a last time for the return value that is not
positive, which ends the loop. -/
theorem C18_handler_only_reaps :
    (∀ (s : State) (sigNum : Int) (results : List Int) (out : Outcome),
      handler s sigNum results = some out →
        out.state = s ∧ out.running = true ∧
        ∀ a ∈ out.actions, a = Action.waitpid (-1) WNOHANG) ∧
    (∀ (s : State) (sigNum : Int) (pids : List Int) (last : Int) (more : List Int),
      (∀ p ∈ pids, 0 < p) → last ≤ 0 →
        handler s sigNum (pids ++ last :: more) =
          some { state := s,
                 actions := List.replicate (pids.length + 1) (Action.waitpid (-1) WNOHANG),
                 running := true }) ∧
    handler statePwdLs 17 [4242, 4243, 0] =
      some { state := statePwdLs,
             actions := [Action.waitpid (-1) WNOHANG, Action.waitpid (-1) WNOHANG,
               Action.waitpid (-1) WNOHANG],
             running := true } := by
  refine ⟨?_, ?_, by decide⟩
  · intro s sigNum results out h
    unfold handler at h
    cases hl : handlerLoop results with
    | none => rw [hl] at h; simp at h
    | some calls =>
      rw [hl] at h
      injection h with h
      subst h
      exact ⟨rfl, rfl, handlerLoop_calls results calls hl⟩
  · intro s sigNum pids last more hp hl
    unfold handler
    rw [handlerLoop_spec pids last more hp hl]

/-- C18, an instance: two children collected, then the call that finds none. -/
theorem C18_handler_only_reaps_witness :
    handler initState 17 [10, 11, -1] =
      some { state := initState,
             actions := List.replicate 3 (Action.waitpid (-1) WNOHANG),
             running := true } :=
  C18_handler_only_reaps.2.1 initState 17 [10, 11] (-1) [] (by decide) (by decide)


/-! ## The launcher -/

/-- What `executeCommand` does in the calling process when `fork` returned a
value other than 0: nothing but `fork` in the background, `fork` and one
blocking `waitpid` on the returned value in the foreground. -/
theorem executeCommand_parent (os : Os) (s : State) (tokens : List (List Char)) (bg : Int)
    (hpid : os.forkResult ≠ 0) :
    executeCommand os s tokens bg =
      some { state := s,
             actions := if bg ≠ 0 then [Action.fork]
               else [Action.fork, Action.waitpid os.forkResult 0],
             running := true } := by
  unfold executeCommand
  by_cases hb : bg ≠ 0
  · simp only [if_pos hb, if_neg hpid]
  · simp only [if_neg hb, if_pos hpid]

/-- What `executeCommand` does in the child, where `fork` returned 0: `execvp`
of the first token with the whole token sequence, and when that returns the
message and `exit(0)`. -/
theorem executeCommand_child (os : Os) (s : State) (t0 : List Char) (rest : List (List Char))
    (bg : Int) (hpid : os.forkResult = 0) :
    executeCommand os s (t0 :: rest) bg =
      some { state := s,
             actions := [Action.fork, Action.execvp t0 (t0 :: rest)] ++
               (if os.execvpFails then
                  [Action.print (t0 ++ ": command not found\n".toList), Action.exit 0]
                else []),
             running := false } := by
  unfold executeCommand childExec
  by_cases hb : bg ≠ 0
  · simp only [if_pos hb, if_pos hpid]
  · simp only [if_neg hb, hpid, ne_eq, not_true_eq_false, if_false]

/-! ## The launcher claim -/

/-- C15, the failing input: when `fork` fails and returns -1, no child exists,
yet `executeCommand` in the foreground calls `waitpid(-1, NULL, 0)`, the
blocking wait for any child at all. -/
theorem C15_fork_failure_waits_for_any_child (s : State) (execvpFails : Bool) :
    executeCommand { forkResult := -1, execvpFails := execvpFails } s ["ls".toList] 0 =
      some { state := s, actions := [Action.fork, Action.waitpid (-1) 0], running := true } := by
  rfl


/-! ## Lines that begin with `!` -/

theorem searchLoop_cases_slot (handle : State → List Char → Option Outcome) (s : State)
    (numCmd : List Char) (d : Nat) :
    ∀ k i0, searchLoop handle s numCmd d k i0 =
        some { state := s, actions := [Action.print (numCmd ++ ": event not found\n".toList)],
               running := true } ∨
      ∃ i, (s.historyBuffer.getD i { command := [], commandID := 0 }).commandID = d ∧
        searchLoop handle s numCmd d k i0 =
          handle s (s.historyBuffer.getD i { command := [], commandID := 0 }).command := by
  intro k
  induction k with
  | zero => intro i0; exact Or.inl rfl
  | succ k ih =>
    intro i0
    simp only [searchLoop]
    split_ifs with h
    · exact Or.inr ⟨i0, h, rfl⟩
    · exact ih (i0 + 1)

/-- A replay whose digits `atoi` cannot read as an `int` has no defined
result. -/
theorem handleInput_replay_undefined (os : Os) (fuel : Nat) (s : State) (line ds : List Char)
    (rest : List (List Char)) (bg : Int)
    (hp : parseCommand line = some (('!' :: ds) :: rest, bg))
    (hne : ds ≠ []) (hd : ∀ c ∈ ds, isdigit c = true) (hv : atoi ds = none) :
    handleInput os fuel s line = none := by
  cases fuel with
  | zero => rfl
  | succ fuel =>
    have hcd := checkDigits_bang_digits ds hne hd
    simp [handleInput, hp, dispatch, hcd, builtInCommands, executeOldCommand, hv]

/-- A line whose first token begins with `!` leaves the globals alone when it
is not a replay token, or when every slot that carries its number is empty. -/
theorem handleInput_bang_frame (os : Os) (fuel : Nat) (s : State) (line t0 : List Char)
    (rest : List (List Char)) (bg : Int)
    (hp : parseCommand line = some (t0 :: rest, bg)) (hb : t0[0]? = some '!')
    (hq : checkDigits t0 ≠ 0 → ∃ v, atoi (t0.drop 1) = some v ∧
      ∀ i, (s.historyBuffer.getD i { command := [], commandID := 0 }).commandID =
          (v % (UINT_RANGE : Int)).toNat →
        (s.historyBuffer.getD i { command := [], commandID := 0 }).command = []) :
    ∃ out, handleInput os (fuel + 2) s line = some out ∧ out.state = s := by
  by_cases hc : checkDigits t0 = 0
  · rw [handleInput_bang_malformed os (fuel + 1) s line t0 rest bg hp hb hc]
    exact executeCommand_cons os s t0 rest bg
  · obtain ⟨v, hv, hslots⟩ := hq hc
    have h1 : checkDigits t0 = 1 := by
      rcases checkDigits_values t0 with h | h
      · exact h
      · exact absurd h hc
    obtain ⟨ds, ht, hne, hd⟩ := (checkDigits_eq_one_iff t0).mp h1
    subst ht
    simp only [List.drop_succ_cons, List.drop_zero] at hv
    rw [handleInput_replay os (fuel + 1) s line ds rest bg v hp hne hd hv]
    rcases searchLoop_cases_slot (handleInput os (fuel + 1)) s ('!' :: ds)
      (v % (UINT_RANGE : Int)).toNat HISTORY_LENGTH 0 with h | ⟨i, hid, h⟩
    · exact ⟨_, h, rfl⟩
    · rw [h, hslots i hid]
      exact ⟨_, handleInput_empty os fuel s [] 0 (by decide), rfl⟩

/-! ## Depth of the replay recursion -/

/-- In a reachable state every slot holds a recorded line or is still zeroed. -/
theorem reachable_slots (s : State) (h : Reachable s) :
    ∀ r ∈ s.historyBuffer, Recorded r.command ∨ r = { command := [], commandID := 0 } := by
  obtain ⟨lines, hrec, hs⟩ := reachable_recordAll s h
  obtain ⟨_, hl, hb⟩ := recordAll_closed lines
  rw [← hs] at hl hb
  intro r hr
  obtain ⟨i, hi, hget⟩ := List.getElem_of_mem hr
  have hbi := hb i (by rw [← hl]; exact hi)
  rw [List.getElem?_eq_getElem hi, hget] at hbi
  injection hbi with hbi
  by_cases hin : i < lines.length
  · left
    rw [hbi, if_pos hin]
    have hidx : lines.length - 1 - i < lines.length := by omega
    have : lines.getD (lines.length - 1 - i) [] = lines[lines.length - 1 - i] := by
      simp [List.getD_eq_getElem?_getD, List.getElem?_eq_getElem hidx]
    simp only [this]
    exact hrec _ (List.getElem_mem _)
  · right
    rw [hbi, if_neg hin]

theorem reachable_slot_text (s : State) (h : Reachable s) (i : Nat) :
    Recorded (s.historyBuffer.getD i { command := [], commandID := 0 }).command ∨
      (s.historyBuffer.getD i { command := [], commandID := 0 }).command = [] := by
  rw [List.getD_eq_getElem?_getD]
  cases hg : s.historyBuffer[i]? with
  | none => right; rfl
  | some r =>
    rcases reachable_slots s h r (List.getElem?_mem hg) with hr | hr
    · left; exact hr
    · right; rw [Option.getD_some, hr]

/-- Handling a recorded line or the empty text gives a result that does not
depend on the fuel left for replays. -/
theorem handleInput_plain (os : Os) (s : State) (t : List Char) (h : Recorded t ∨ t = []) :
    (∀ f g, handleInput os (f + 1) s t = handleInput os (g + 1) s t) ∧
    ∀ f, ∃ out, handleInput os (f + 1) s t = some out := by
  rcases h with h | h
  · refine ⟨fun f g => handleInput_recorded_fuel os f g s t h, fun f => ?_⟩
    obtain ⟨t0, rest, bg, hp, hb⟩ := h
    rw [handleInput_recorded os f s t t0 rest bg hp hb]
    obtain ⟨out, ho, _⟩ := dispatch_not_bang_state os (handleInput os f) (recordStep s t)
      t0 rest bg hb
    exact ⟨out, ho⟩
  · subst h
    have hp : parseCommand [] = some ([], 0) := by decide
    exact ⟨fun f g => by rw [handleInput_empty os f s [] 0 hp, handleInput_empty os g s [] 0 hp],
      fun f => ⟨_, handleInput_empty os f s [] 0 hp⟩⟩

theorem searchLoop_congr (h1 h2 : State → List Char → Option Outcome) (s : State)
    (numCmd : List Char) (d : Nat)
    (h : ∀ i, h1 s (s.historyBuffer.getD i { command := [], commandID := 0 }).command =
      h2 s (s.historyBuffer.getD i { command := [], commandID := 0 }).command) :
    ∀ k i0, searchLoop h1 s numCmd d k i0 = searchLoop h2 s numCmd d k i0 := by
  intro k
  induction k with
  | zero => intro i0; rfl
  | succ k ih =>
    intro i0
    simp only [searchLoop, h i0, ih (i0 + 1)]

theorem dispatch_congr (os : Os) (h1 h2 : State → List Char → Option Outcome) (s : State)
    (tokens : List (List Char)) (bg : Int)
    (h : ∀ i, h1 s (s.historyBuffer.getD i { command := [], commandID := 0 }).command =
      h2 s (s.historyBuffer.getD i { command := [], commandID := 0 }).command) :
    dispatch os h1 s tokens bg = dispatch os h2 s tokens bg := by
  cases tokens with
  | nil => rfl
  | cons t0 rest =>
    simp only [dispatch, builtInCommands, executeOldCommand]
    cases atoi (List.drop 1 t0) with
    | none => rfl
    | some v =>
      simp only [searchLoop_congr h1 h2 s t0 (v % (UINT_RANGE : Int)).toNat h HISTORY_LENGTH 0]

/-- In a reachable state one nested call is all the recursion there is: more
fuel than 2 changes nothing. -/
theorem handleInput_fuel_two (os : Os) (fuel : Nat) (s : State) (line : List Char)
    (hs : Reachable s) :
    handleInput os (fuel + 2) s line = handleInput os 2 s line := by
  cases hp : parseCommand line with
  | none => simp [handleInput, hp]
  | some r =>
    obtain ⟨tokens, bg⟩ := r
    cases tokens with
    | nil => rw [handleInput_empty os (fuel + 1) s line bg hp, handleInput_empty os 1 s line bg hp]
    | cons t0 rest =>
      by_cases hb : t0[0]? = some '!'
      · have e1 : (if t0[0]? ≠ some '!' then recordStep s line else s) = s :=
          if_neg (fun h => h hb)
        simp only [handleInput, hp, e1]
        apply dispatch_congr
        intro i
        exact (handleInput_plain os s _ (reachable_slot_text s hs i)).1 fuel 0
      · exact handleInput_recorded_fuel os (fuel + 1) 1 s line ⟨t0, rest, bg, hp, hb⟩

theorem searchLoop_returns (os : Os) (fuel : Nat) (s : State) (hs : Reachable s)
    (numCmd : List Char) (d : Nat) :
    ∃ out, searchLoop (handleInput os (fuel + 1)) s numCmd d HISTORY_LENGTH 0 = some out := by
  rcases searchLoop_cases_slot (handleInput os (fuel + 1)) s numCmd d HISTORY_LENGTH 0
    with h | ⟨i, _, h⟩
  · exact ⟨_, h⟩
  · rw [h]
    exact (handleInput_plain os s _ (reachable_slot_text s hs i)).2 fuel

/-- In a reachable state `handleInput` has a result with fuel 2, unless the
line is a replay whose digits `atoi` cannot read as an `int`. -/
theorem handleInput_defined (os : Os) (s : State) (line : List Char) (hs : Reachable s) :
    (∃ out, handleInput os 2 s line = some out) ∨
    ∃ ds rest bg, parseCommand line = some (('!' :: ds) :: rest, bg) ∧ ds ≠ [] ∧
      (∀ c ∈ ds, isdigit c = true) ∧ atoi ds = none := by
  have hp := parseCommand_eq_ref line
  cases hr : parseCommandRef line with
  | mk tokens bg =>
    rw [hr] at hp
    cases tokens with
    | nil => exact Or.inl ⟨_, handleInput_empty os 1 s line bg hp⟩
    | cons t0 rest =>
      by_cases hb : t0[0]? = some '!'
      · rcases checkDigits_values t0 with hc | hc
        · obtain ⟨ds, ht, hne, hd⟩ := (checkDigits_eq_one_iff t0).mp hc
          subst ht
          cases hv : atoi ds with
          | none => exact Or.inr ⟨ds, rest, bg, hp, hne, hd, hv⟩
          | some v =>
            left
            rw [handleInput_replay os 1 s line ds rest bg v hp hne hd hv]
            exact searchLoop_returns os 0 s hs _ _
        · left
          rw [handleInput_bang_malformed os 1 s line t0 rest bg hp hb hc]
          obtain ⟨out, ho, _⟩ := executeCommand_cons os s t0 rest bg
          exact ⟨out, ho⟩
      · left
        exact (handleInput_plain os s line (Or.inl ⟨t0, rest, bg, hp, hb⟩)).2 1


/-! ## The replay cycle claim -/

/-- C16: in every reachable state no held record has a text whose first token
begins with `!`, and every slot holds a recorded line or is still zeroed with
the empty text.  So the recursion through `executeOldCommand` nests one level
at most: with any fuel above 2 `handleInput` gives what it gives with fuel 2,
the search of `executeOldCommand` returns for whatever number it is given, and
`handleInput` has a result on every line, the one exception being a replay
number outside the range of `int`, on which `atoi` itself is undefined. -/
theorem C16_replay_nests_once (s : State) (hs : Reachable s) :
    (∀ r ∈ heldRecords s, Recorded r.command) ∧
    (∀ r ∈ s.historyBuffer, Recorded r.command ∨ r = { command := [], commandID := 0 }) ∧
    (∀ (os : Os) (fuel : Nat) (line : List Char),
      handleInput os (fuel + 2) s line = handleInput os 2 s line) ∧
    (∀ (os : Os) (fuel : Nat) (numCmd : List Char) (d : Nat),
      ∃ out, searchLoop (handleInput os (fuel + 1)) s numCmd d HISTORY_LENGTH 0 = some out) ∧
    (∀ (os : Os) (line : List Char),
      (∃ out, handleInput os 2 s line = some out) ∨
      ∃ ds rest bg, parseCommand line = some (('!' :: ds) :: rest, bg) ∧ ds ≠ [] ∧
        (∀ c ∈ ds, isdigit c = true) ∧ atoi ds = none) := by
  refine ⟨?_, reachable_slots s hs, fun os fuel line => handleInput_fuel_two os fuel s line hs,
    fun os fuel numCmd d => searchLoop_returns os fuel s hs numCmd d,
    fun os line => handleInput_defined os s line hs⟩
  intro r hr
  obtain ⟨i, hi, hget⟩ := List.getElem_of_mem hr
  exact (reachable_held s hs i r (by rw [List.getElem?_eq_getElem hi, hget])).2.2.1

/-- C16, an instance: after `pwd` and `ls`, the replay `!2` with fuel 5 gives
what it gives with fuel 2, a result. -/
theorem C16_replay_nests_once_witness :
    handleInput shellOs 5 statePwdLs "!2\n".toList = handleInput shellOs 2 statePwdLs "!2\n".toList ∧
    (handleInput shellOs 2 statePwdLs "!2\n".toList).map (fun out => out.actions) =
      some [Action.fork, Action.waitpid 4242 0] :=
  ⟨(C16_replay_nests_once statePwdLs reachable_statePwdLs).2.2.1 shellOs 3 "!2\n".toList,
    by decide⟩


/-! ## The records of the ledger -/

theorem Recorded_ne_nil (t : List Char) (h : Recorded t) : t ≠ [] := by
  intro ht
  obtain ⟨t0, rest, bg, hp, _⟩ := h
  have h0 : parseCommand [] = some ([], 0) := by decide
  rw [ht, h0] at hp
  injection hp with hp
  injection hp with hp _
  exact absurd hp (by simp)

theorem mem_ledgerRecords (s : State) (r : history_t) :
    r ∈ ledgerRecords s ↔ r ∈ s.historyBuffer ∧ r.command ≠ [] := by
  simp [ledgerRecords, List.mem_filter]

/-- After the record steps of recorded lines the records of the ledger are
the first `min(n, 10)` slots, whatever the counter says. -/
theorem ledgerRecords_recordAll (lines : List (List Char)) (hrec : ∀ t ∈ lines, Recorded t) :
    ledgerRecords (recordAll initState lines) =
      (recordAll initState lines).historyBuffer.take (min lines.length HISTORY_LENGTH) := by
  obtain ⟨_, hl, hb⟩ := recordAll_closed lines
  have hsplit := List.take_append_drop (min lines.length HISTORY_LENGTH)
    (recordAll initState lines).historyBuffer
  have h1 : ((recordAll initState lines).historyBuffer.take
      (min lines.length HISTORY_LENGTH)).filter (fun r => !r.command.isEmpty) =
      (recordAll initState lines).historyBuffer.take (min lines.length HISTORY_LENGTH) := by
    rw [List.filter_eq_self]
    intro r hr
    obtain ⟨i, hi⟩ := List.mem_iff_getElem?.mp hr
    rw [List.getElem?_take] at hi
    split at hi
    · rename_i hlt
      have hi10 : i < HISTORY_LENGTH := lt_of_lt_of_le hlt (Nat.min_le_right _ _)
      have hin : i < lines.length := lt_of_lt_of_le hlt (Nat.min_le_left _ _)
      rw [hb i hi10, if_pos hin] at hi
      injection hi with hi
      have hidx : lines.length - 1 - i < lines.length := by omega
      have hget : lines.getD (lines.length - 1 - i) [] = lines[lines.length - 1 - i] := by
        simp [List.getD_eq_getElem?_getD, List.getElem?_eq_getElem hidx]
      have hne := Recorded_ne_nil _ (hrec _ (List.getElem_mem hidx))
      rw [← hi]
      simp only [hget]
      simpa using hne
    · exact absurd hi (by simp)
  have h2 : ((recordAll initState lines).historyBuffer.drop
      (min lines.length HISTORY_LENGTH)).filter (fun r => !r.command.isEmpty) = [] := by
    rw [List.filter_eq_nil_iff]
    intro r hr
    obtain ⟨i, hi⟩ := List.mem_iff_getElem?.mp hr
    rw [List.getElem?_drop] at hi
    have hlt : min lines.length HISTORY_LENGTH + i < HISTORY_LENGTH := by
      have := (List.getElem?_eq_some_iff.mp hi).1
      omega
    have hnot : ¬ (min lines.length HISTORY_LENGTH + i < lines.length) := by omega
    rw [hb _ hlt, if_neg hnot] at hi
    injection hi with hi
    rw [← hi]
    simp
  conv_lhs => rw [ledgerRecords, ← hsplit, List.filter_append, h1, h2, List.append_nil]

/-- Before the counter wraps the records of the ledger are the slots the
counter marks as filled. -/
theorem ledgerRecords_eq_held (lines : List (List Char)) (hrec : ∀ t ∈ lines, Recorded t)
    (hn : lines.length < UINT_RANGE) :
    ledgerRecords (recordAll initState lines) = heldRecords (recordAll initState lines) := by
  rw [ledgerRecords_recordAll lines hrec, heldRecords, (recordAll_closed lines).1,
    Nat.mod_eq_of_lt hn]

/-- Lines that the shell process launches or lists are recorded one after the
other: the state after their record steps is reachable. -/
theorem reachable_of_lines (lines : List (List Char))
    (h : ∀ t ∈ lines, t.length < MAX_CMD_LENGTH ∧ ∃ t0 rest bg,
      parseCommand t = some (t0 :: rest, bg) ∧ t0[0]? ≠ some '!' ∧ t0 ≠ "exit".toList) :
    Reachable (recordAll initState lines) := by
  induction lines using List.reverseRecOn with
  | nil => exact Reachable.init
  | append_singleton lines t ih =>
    have hprev := ih (fun u hu => h u (by simp [hu]))
    obtain ⟨hlen, t0, rest, bg, hp, hb, hex⟩ := h t (by simp)
    have hout : ∃ out, handleInput shellOs 1 (recordAll initState lines) t = some out ∧
        out.state = recordStep (recordAll initState lines) t ∧ out.running = true := by
      rw [handleInput_recorded shellOs 0 _ t t0 rest bg hp hb,
        dispatch_not_bang shellOs _ _ t0 rest bg hb, if_neg hex]
      split_ifs
      · exact ⟨_, rfl, rfl, rfl⟩
      · rw [executeCommand_parent shellOs _ _ bg (by decide)]
        exact ⟨_, rfl, rfl, rfl⟩
    obtain ⟨out, ho, hst, hrun⟩ := hout
    rw [recordAll_concat, ← hst]
    exact Reachable.step shellOs 1 t out hprev hlen ho hrun

theorem reachable_replicate_ls (n : Nat) :
    Reachable (recordAll initState (List.replicate n "ls\n".toList)) := by
  apply reachable_of_lines
  intro t ht
  rw [List.eq_of_mem_replicate ht]
  exact ⟨by decide, "ls".toList, [], 0, by decide, by decide, by decide⟩

theorem recorded_replicate_ls (n : Nat) :
    ∀ t ∈ List.replicate n "ls\n".toList, Recorded t := by
  intro t ht
  rw [List.eq_of_mem_replicate ht]
  exact ⟨"ls".toList, [], 0, by decide, by decide⟩


theorem recorded_pwd_ls : ∀ t ∈ ["pwd\n".toList, "ls\n".toList], Recorded t := by
  intro t ht
  simp only [List.mem_cons, List.mem_singleton, List.not_mem_nil, or_false] at ht
  rcases ht with ht | ht
  · rw [ht]; exact ⟨"pwd".toList, [], 0, by decide, by decide⟩
  · rw [ht]; exact ⟨"ls".toList, [], 0, by decide, by decide⟩

/-- Before the counter wraps the listing is the records of the ledger, last
slot first. -/
theorem printHistory_ledger (lines : List (List Char)) (hrec : ∀ t ∈ lines, Recorded t)
    (hn : lines.length < UINT_RANGE) :
    printHistory (recordAll initState lines) =
      (ledgerRecords (recordAll initState lines)).reverse.map
        (fun r => Action.print (formatRecord r)) := by
  rw [printHistory_eq _ (recordAll_closed lines).2.1, ledgerRecords_eq_held lines hrec hn]

/-! ## The listing claims -/

/-- C9 (amended): for every state reached from the initial state by fewer than
`2 ^ 32` recorded lines, `printHistory` prints the records of the ledger oldest
first: the output is the records in reverse ledger order, so the first line
printed is the oldest record still held and the last line printed is the most
recent one, the record at index 0, which has the largest identifier. -/
theorem C9_printHistory_oldest_first (lines : List (List Char))
    (hrec : ∀ t ∈ lines, Recorded t) (hn : lines.length < UINT_RANGE) :
    printHistory (recordAll initState lines) =
      (ledgerRecords (recordAll initState lines)).reverse.map
        (fun r => Action.print (formatRecord r)) ∧
    (printHistory (recordAll initState lines)).head? =
      (ledgerRecords (recordAll initState lines)).getLast?.map
        (fun r => Action.print (formatRecord r)) ∧
    (printHistory (recordAll initState lines)).getLast? =
      (ledgerRecords (recordAll initState lines)).head?.map
        (fun r => Action.print (formatRecord r)) ∧
    ledgerRecords (recordAll initState lines) =
      (List.range (min lines.length HISTORY_LENGTH)).map (fun i =>
        { command := lines.getD (lines.length - 1 - i) [], commandID := lines.length - i }) ∧
    (ledgerRecords (recordAll initState lines)).head? =
      (if lines.length = 0 then none else (recordAll initState lines).historyBuffer[0]?) := by
  have h := printHistory_ledger lines hrec hn
  have hform : ledgerRecords (recordAll initState lines) =
      (List.range (min lines.length HISTORY_LENGTH)).map (fun i =>
        ({ command := lines.getD (lines.length - 1 - i) [],
           commandID := lines.length - i } : history_t)) := by
    rw [ledgerRecords_eq_held lines hrec hn, heldRecords_recordAll lines hn]
  refine ⟨h, ?_, ?_, hform, ?_⟩
  · rw [h, List.head?_map, List.head?_reverse]
  · rw [h, List.getLast?_map, List.getLast?_reverse]
  · rw [ledgerRecords_recordAll lines hrec]
    by_cases hc : lines.length = 0
    · simp [hc]
    · obtain ⟨k, hk⟩ : ∃ k, min lines.length HISTORY_LENGTH = k + 1 := by
        simp only [HISTORY_LENGTH]
        exact ⟨min lines.length 10 - 1, by omega⟩
      rw [hk, if_neg hc]
      cases (recordAll initState lines).historyBuffer <;> simp

/-- C9, an instance: after `pwd` and `ls` the listing prints `pwd` first and
`ls`, the record at index 0, last. -/
theorem C9_printHistory_oldest_first_witness :
    printHistory (recordAll initState ["pwd\n".toList, "ls\n".toList]) =
      [Action.print "\t\t1 pwd\n".toList, Action.print "\t\t2 ls\n".toList] ∧
    (printHistory (recordAll initState ["pwd\n".toList, "ls\n".toList])).getLast? =
      (ledgerRecords (recordAll initState ["pwd\n".toList, "ls\n".toList])).head?.map
        (fun r => Action.print (formatRecord r)) :=
  ⟨by decide,
    (C9_printHistory_oldest_first ["pwd\n".toList, "ls\n".toList] recorded_pwd_ls
      (by decide)).2.2.1⟩

/-- C9 as stated fails in two ways.  After the lines `pwd`, `ls`, `history`
the listing prints identifier 1 first and the most recent record, identifier 3
at index 0, last.  And in the reachable state after 4294967299 lines `ls`,
where the counter has wrapped to 3, the listing starts at slot 2, identifier 1,
while the oldest record the ledger still holds is the one in slot 9. -/
theorem C9_counterexample_not_most_recent_first :
    ((handleInput shellOs 2 initState "pwd\n".toList).bind fun o1 =>
      (handleInput shellOs 2 o1.state "ls\n".toList).bind fun o2 =>
        (handleInput shellOs 2 o2.state "history\n".toList).map fun o3 =>
          (o3.actions, o3.state.historyBuffer[0]?)) =
      some ([Action.print "\t\t1 pwd\n".toList, Action.print "\t\t2 ls\n".toList,
             Action.print "\t\t3 history\n".toList],
            some { command := "history\n".toList, commandID := 3 }) ∧
    Reachable (recordAll initState (List.replicate 4294967299 "ls\n".toList)) ∧
    (printHistory (recordAll initState (List.replicate 4294967299 "ls\n".toList))).head? =
      some (Action.print "\t\t1 ls\n".toList) ∧
    (ledgerRecords (recordAll initState (List.replicate 4294967299 "ls\n".toList))).getLast? =
      some { command := "ls\n".toList, commandID := 4294967290 } := by
  refine ⟨by decide, reachable_replicate_ls _, ?_⟩
  rw [recordAll_replicate _ _ (by decide)]
  decide

/-- C10 (amended): for every state reached from the initial state by fewer
than `2 ^ 32` recorded lines, with counter `c`, `printHistory` prints exactly
`min(c,10)` lines; the lines are the records of the ledger, each exactly once,
every one a line that was recorded (never a zeroed slot), and every line is two
tabs, the decimal identifier, one space and the stored text. -/
theorem C10_printHistory_lines (lines : List (List Char))
    (hrec : ∀ t ∈ lines, Recorded t) (hn : lines.length < UINT_RANGE) :
    (recordAll initState lines).commandCount = lines.length ∧
    (printHistory (recordAll initState lines)).length =
      min (recordAll initState lines).commandCount HISTORY_LENGTH ∧
    (printHistory (recordAll initState lines)).Perm
      ((ledgerRecords (recordAll initState lines)).map
        (fun r => Action.print (formatRecord r))) ∧
    (ledgerRecords (recordAll initState lines)).length =
      min (recordAll initState lines).commandCount HISTORY_LENGTH ∧
    (∀ r ∈ ledgerRecords (recordAll initState lines),
      r ∈ (recordAll initState lines).historyBuffer ∧ Recorded r.command) ∧
    (∀ r : history_t, formatRecord r =
      [ '\t', '\t'] ++ (Nat.repr r.commandID).toList ++ [ ' '] ++ r.command) ∧
    formatRecord { command := "ls -l\n".toList, commandID := 12 } = "\t\t12 ls -l\n".toList := by
  obtain ⟨hc, hl, _⟩ := recordAll_closed lines
  rw [Nat.mod_eq_of_lt hn] at hc
  have h := printHistory_ledger lines hrec hn
  have hlen : (ledgerRecords (recordAll initState lines)).length =
      min (recordAll initState lines).commandCount HISTORY_LENGTH := by
    rw [ledgerRecords_recordAll lines hrec, List.length_take, hl, hc]
    omega
  refine ⟨hc, by rw [h]; simp [hlen], ?_, hlen, ?_, fun r => rfl, by decide⟩
  · rw [h, List.map_reverse]
    exact List.reverse_perm _
  · intro r hr
    have hmem := (mem_ledgerRecords _ r).mp hr
    refine ⟨hmem.1, ?_⟩
    rw [ledgerRecords_eq_held lines hrec hn, heldRecords_recordAll lines hn] at hr
    obtain ⟨i, hi, hr⟩ := List.mem_map.mp hr
    rw [List.mem_range] at hi
    have hin : i < lines.length := lt_of_lt_of_le hi (Nat.min_le_left _ _)
    have hidx : lines.length - 1 - i < lines.length := by omega
    have hget : lines.getD (lines.length - 1 - i) [] = lines[lines.length - 1 - i] := by
      simp [List.getD_eq_getElem?_getD, List.getElem?_eq_getElem hidx]
    rw [← hr]
    simp only [hget]
    exact hrec _ (List.getElem_mem hidx)

/-- C10, an instance: after `pwd` and `ls` the listing has two lines, the two
records of the ledger. -/
theorem C10_printHistory_lines_witness :
    (printHistory (recordAll initState ["pwd\n".toList, "ls\n".toList])).length = 2 ∧
    printHistory (recordAll initState ["pwd\n".toList, "ls\n".toList]) =
      [Action.print "\t\t1 pwd\n".toList, Action.print "\t\t2 ls\n".toList] ∧
    ledgerRecords (recordAll initState ["pwd\n".toList, "ls\n".toList]) =
      [{ command := "ls\n".toList, commandID := 2 },
       { command := "pwd\n".toList, commandID := 1 }] :=
  ⟨(C10_printHistory_lines ["pwd\n".toList, "ls\n".toList] recorded_pwd_ls (by decide)).2.1,
    by decide, by decide⟩

/-- C10 as stated fails once the counter has wrapped: in the reachable state
after 4294967299 lines `ls` the counter is 3, the ledger holds ten recorded
lines, and the listing has three lines only, so seven held records are not
printed. -/
theorem C10_counterexample_counter_wraps :
    Reachable (recordAll initState (List.replicate 4294967299 "ls\n".toList)) ∧
    (recordAll initState (List.replicate 4294967299 "ls\n".toList)).commandCount = 3 ∧
    (ledgerRecords (recordAll initState (List.replicate 4294967299 "ls\n".toList))).length =
      10 ∧
    (printHistory (recordAll initState (List.replicate 4294967299 "ls\n".toList))).length =
      3 := by
  refine ⟨reachable_replicate_ls _, ?_⟩
  rw [recordAll_replicate _ _ (by decide)]
  decide


/-! ## The claim on lines that begin with `!` -/

/-- A slot that carries a number no record of the ledger carries has the empty
text. -/
theorem unheld_slot_empty (s : State) (d : Nat)
    (hd : ∀ r ∈ ledgerRecords s, r.commandID ≠ d) (i : Nat)
    (hi : (s.historyBuffer.getD i { command := [], commandID := 0 }).commandID = d) :
    (s.historyBuffer.getD i { command := [], commandID := 0 }).command = [] := by
  rw [List.getD_eq_getElem?_getD] at hi ⊢
  cases hg : s.historyBuffer[i]? with
  | none => rfl
  | some r =>
    rw [hg, Option.getD_some] at hi
    rw [Option.getD_some]
    by_contra hne
    exact hd r ((mem_ledgerRecords s r).mpr ⟨List.getElem?_mem hg, hne⟩) hi

/-- C13 (amended): for every state, reachable or not, and every input line
whose first token begins with `!`, when the token is not a replay token, or is
one whose digits `atoi` reads as an `int` that is not the identifier of any
record of the ledger, `handleInput` returns with every slot of the ledger and
the counter unchanged. -/
theorem C13_bang_line_leaves_ledger (os : Os) (fuel : Nat) (s : State)
    (line t0 : List Char) (rest : List (List Char)) (bg : Int)
    (hp : parseCommand line = some (t0 :: rest, bg)) (hb : t0[0]? = some '!')
    (hnot : checkDigits t0 ≠ 0 → ∃ v, atoi (t0.drop 1) = some v ∧
      ∀ r ∈ ledgerRecords s, r.commandID ≠ (v % (UINT_RANGE : Int)).toNat) :
    ∃ out, handleInput os (fuel + 2) s line = some out ∧
      out.state = s ∧
      out.state.historyBuffer = s.historyBuffer ∧
      out.state.commandCount = s.commandCount := by
  obtain ⟨out, h1, h2⟩ := handleInput_bang_frame os fuel s line t0 rest bg hp hb
    (fun hc => by
      obtain ⟨v, hv, hheld⟩ := hnot hc
      exact ⟨v, hv, fun i hi => unheld_slot_empty s _ hheld i hi⟩)
  exact ⟨out, h1, h2, by rw [h2], by rw [h2]⟩

/-- C13, instances: after `pwd` and `ls`, the lines `!abc`, `!7` and `!0`
leave the ledger as it is. -/
theorem C13_bang_line_leaves_ledger_witness :
    (∃ out, handleInput shellOs 2 statePwdLs "!abc\n".toList = some out ∧
      out.state = statePwdLs) ∧
    (∃ out, handleInput shellOs 2 statePwdLs "!7\n".toList = some out ∧
      out.state = statePwdLs) ∧
    (∃ out, handleInput shellOs 2 statePwdLs "!0\n".toList = some out ∧
      out.state = statePwdLs) :=
  ⟨(C13_bang_line_leaves_ledger shellOs 0 statePwdLs "!abc\n".toList
      "!abc".toList [] 0 (by decide) (by decide)
      (fun h => absurd (by decide) h)).imp fun _ h => ⟨h.1, h.2.1⟩,
   (C13_bang_line_leaves_ledger shellOs 0 statePwdLs "!7\n".toList
      "!7".toList [] 0 (by decide) (by decide)
      (fun _ => ⟨7, by decide, by decide⟩)).imp fun _ h => ⟨h.1, h.2.1⟩,
   (C13_bang_line_leaves_ledger shellOs 0 statePwdLs "!0\n".toList
      "!0".toList [] 0 (by decide) (by decide)
      (fun _ => ⟨0, by decide, by decide⟩)).imp fun _ h => ⟨h.1, h.2.1⟩⟩

/-- C13 as stated fails for a replay number outside the range of `int`.  After
`pwd` the ledger holds identifier 1 only, and the line `!4294967297` names no
record of it; `atoi` is undefined on these digits and `handleInput` has no
defined result, and with the number 1 that `atoi` yields for them on the usual
platforms the search replays `pwd` and records it, so the counter becomes 2. -/
theorem C13_counterexample_unheld_number_recorded :
    (∀ r ∈ ledgerRecords statePwd, r.commandID ≠ 4294967297) ∧
    atoi "4294967297".toList = none ∧
    (¬ ∃ fuel out, handleInput shellOs fuel statePwd "!4294967297\n".toList = some out) ∧
    (searchLoop (handleInput shellOs 1) statePwd "!4294967297".toList 1 HISTORY_LENGTH 0).map
      (fun out => out.state.commandCount) = some 2 := by
  refine ⟨by decide, by decide, ?_, by decide⟩
  rintro ⟨fuel, out, h⟩
  rw [handleInput_replay_undefined shellOs fuel statePwd "!4294967297\n".toList
    "4294967297".toList [] 0 (by decide) (by decide) (by decide) (by decide)] at h
  exact absurd h (by simp)


end SeaShell
